import Mathlib

/-!
# Verification of the tessellation pattern engine

A shallow embedding of `src/pattern/pattern.go` (package `pattern`), which runs
Conway's Game of Life on a tile that tessellates the plane, together with
proofs about the claims of the specification.

Modelling conventions:
* Go `[][]bool` grids become `List (List Bool)`; an index out of bounds is a
  Go panic and is modelled by `Option`-valued access (`get2?`, `set2?`).
* Go `int` becomes `Int` for coordinates and `Nat` for lengths and counts.
* The Go map `Border map[int][]Cell` becomes an association list
  `List (Nat × List Cell)` kept in first-insertion key order; `Evolve` is
  parameterized by the order in which the entries are visited, because Go map
  iteration order is unspecified.
* In `New`, Go evaluates `len(mask[0])`, which panics on an empty mask; the
  embedding uses `headD []` (length 0), and theorems that need it assume a
  non-empty rectangular mask, which the source declares as a precondition.
-/

namespace Tessellation

/-- Cell conveniently wraps a 2D index (row, col). -/
structure Cell where
  row : Int
  col : Int
deriving DecidableEq, Repr

/-- Offset is a synonym for Cell, as in the source. -/
abbrev Offset := Cell

/-- A boolean grid, the Go `[][]bool`. -/
abbrev BGrid := List (List Bool)

def alive : Bool := true

def dead : Bool := false

/-- Number of columns read by the Go code as `len(g[0])` (panics on `[]` in Go;
modelled as 0, see the module comment). -/
def cols0 (g : List (List α)) : Nat := (g.headD []).length

/-- Read `g[r][c]`; `none` models the Go index panic. -/
def get2? (g : List (List α)) (r c : Int) : Option α :=
  if 0 ≤ r ∧ 0 ≤ c then g[r.toNat]?.bind (fun row => row[c.toNat]?) else none

/-- Write `g[r][c] = v`; `none` models the Go index panic. -/
def set2? (g : List (List α)) (r c : Int) (v : α) : Option (List (List α)) :=
  if 0 ≤ r ∧ 0 ≤ c then
    g[r.toNat]?.bind (fun row =>
      if c.toNat < row.length then some (g.set r.toNat (row.set c.toNat v)) else none)
  else none

/-- The value of the mask at a coordinate, as the Go code reads
`mask[row][col]` after an in-range check (the read never goes out of bounds on
a rectangular mask; the default only matters for ragged masks, which the
source declares undefined behavior). -/
def maskAt (g : BGrid) (r c : Int) : Bool :=
  (get2? g r c).getD false

/-- countNeighbors counts the number of adjacent cells on the board that are
live (Go `countNeighbors`): it returns 0 when the center is out of bounds, and
otherwise scans the rows `row-1, row, row+1` and columns `col-1, col, col+1`,
skipping the center and any out-of-bounds position. -/
def countNeighbors (tile : BGrid) (row col : Int) : Nat :=
  if row < 0 ∨ (tile.length : Int) ≤ row ∨ col < 0 ∨ (cols0 tile : Int) ≤ col then 0
  else
    (([row - 1, row, row + 1].map (fun r =>
      ([col - 1, col, col + 1].filter (fun c =>
        decide (¬(r = row ∧ c = col)) &&
        decide (¬(r < 0 ∨ (tile.length : Int) ≤ r ∨ c < 0 ∨ (cols0 tile : Int) ≤ c)) &&
        (maskAt tile r c == alive))).length)).sum)

/-- evolveCell applies Conway's rules to find the new state of a cell
(Go `evolveCell`); `none` models the panic on an out-of-range read of
`tile[row][col]`. -/
def evolveCell (tile : BGrid) (row col : Int) : Option Bool :=
  match get2? tile row col with
  | none => none
  | some currentState =>
    let liveNeighbors := countNeighbors tile row col
    if currentState = alive then
      if liveNeighbors < 2 then some dead
      else if liveNeighbors > 3 then some dead
      else some alive
    else if liveNeighbors = 3 then some alive
    else some dead

/-- The structured content of the Go overlap error
`fmt.Errorf("rule %v caused overlap r:%v c:%v, id:%v", rule, row, col, id)`. -/
structure OverlapError where
  rule : Offset
  at_ : Cell
  id : Nat
deriving DecidableEq, Repr

/-- Pattern represents a 2D pattern for Conway's Game of Life as a
tessellation (Go `Pattern`). `mask` is the internal id grid; `Border` is the
Go map in first-insertion key order. -/
structure Pattern where
  rows : Nat
  cols : Nat
  mask : List (List Nat)
  Cells : List Cell
  Border : List (Nat × List Cell)
deriving DecidableEq, Repr

/-- Scan one mask row starting at column `j` of row `i`, with `id` ids already
assigned: returns the final id counter, the id-grid row, and the coordinates
appended to `Cells` (the body of the assignment loop of Go `New`). -/
def scanRow (i j : Int) (id : Nat) : List Bool → Nat × List Nat × List Cell
  | [] => (id, [], [])
  | b :: rest =>
    if b = alive then
      let r := scanRow i (j + 1) (id + 1) rest
      (r.1, (id + 1) :: r.2.1, Cell.mk i j :: r.2.2)
    else
      let r := scanRow i (j + 1) id rest
      (r.1, 0 :: r.2.1, r.2.2)

/-- Scan the mask rows starting at row `i` (the outer assignment loop of Go
`New`). -/
def scanRows (i : Int) (id : Nat) : BGrid → Nat × List (List Nat) × List Cell
  | [] => (id, [], [])
  | row :: rest =>
    let r1 := scanRow i 0 id row
    let r2 := scanRows (i + 1) r1.1 rest
    (r2.1, r1.2.1 :: r2.2.1, r1.2.2 ++ r2.2.2)

/-- `t.Border[id] = append(t.Border[id], c)` on the association-list model:
extend the entry of `id` (in place), or create it at the end. -/
def borderAppend : List (Nat × List Cell) → Nat → Cell → List (Nat × List Cell)
  | [], id, c => [(id, [c])]
  | (k, v) :: rest, id, c =>
    if k = id then (k, v ++ [c]) :: rest
    else (k, v) :: borderAppend rest id c

/-- Look a key up in the association list (the empty list stands for an absent
key, as Go `append` on a map never stores an empty slice). -/
def borderGet (B : List (Nat × List Cell)) (id : Nat) : List Cell :=
  match B with
  | [] => []
  | (k, v) :: rest => if k = id then v else borderGet rest id

/-- The in-range check of Go `New`:
`(0 <= row && row < t.rows) && (0 <= col && col < t.cols)`. -/
def inRange (rows cols : Nat) (row col : Int) : Bool :=
  decide (0 ≤ row ∧ row < (rows : Int) ∧ 0 ≤ col ∧ col < (cols : Int))

/-- The inner loop of the tessellation phase of Go `New`: one rule applied to
the remaining `(id, cell)` pairs of `t.Cells` (Go `for id, c := range t.Cells`,
which starts at index 0, i.e. at the sentinel entry). -/
def tessRule (mask : BGrid) (rows cols : Nat) (rule : Offset) :
    List (Nat × Cell) → List (Nat × List Cell) →
    Except OverlapError (List (Nat × List Cell))
  | [], B => .ok B
  | (id, c) :: rest, B =>
    let row := c.row + rule.row
    let col := c.col + rule.col
    if inRange rows cols row col then
      if maskAt mask row col = dead then
        if countNeighbors mask row col > 0 then
          tessRule mask rows cols rule rest (borderAppend B id (Cell.mk row col))
        else
          tessRule mask rows cols rule rest B
      else
        .error ⟨rule, Cell.mk row col, id⟩
    else
      tessRule mask rows cols rule rest B

/-- The outer loop of the tessellation phase of Go `New` over the rules. -/
def tessAll (mask : BGrid) (rows cols : Nat) (cellsEnum : List (Nat × Cell)) :
    List Offset → List (Nat × List Cell) →
    Except OverlapError (List (Nat × List Cell))
  | [], B => .ok B
  | rule :: rs, B =>
    match tessRule mask rows cols rule cellsEnum B with
    | .error e => .error e
    | .ok B' => tessAll mask rows cols cellsEnum rs B'

/-- New makes a tile based on a tile mask and rules for tessellating
(Go `New`). `t.Cells = make([]Cell, 1)` seeds the list with the zero-value
sentinel `Cell{0,0}` at index 0. -/
def New (mask : BGrid) (rules : List Offset) : Except OverlapError Pattern :=
  let rows := mask.length
  let cols := cols0 mask
  let scanned := scanRows 0 0 mask
  let cells := Cell.mk 0 0 :: scanned.2.2
  match tessAll mask rows cols cells.enum rules [] with
  | .error e => .error e
  | .ok B => .ok ⟨rows, cols, scanned.2.1, cells, B⟩

/-- One border write `tile[bc.Row][bc.Col] = tile[tc.Row][tc.Col]` of Go
`Evolve` (the source value is re-read from `tile` at every write, as in the
source). -/
def fillOne (tile : BGrid) (tc bc : Cell) : Option BGrid :=
  match get2? tile tc.row tc.col with
  | none => none
  | some v => set2? tile bc.row bc.col v

/-- The inner border loop of Go `Evolve` for one Border entry. -/
def fillList (tc : Cell) : List Cell → BGrid → Option BGrid
  | [], tile => some tile
  | bc :: rest, tile =>
    match fillOne tile tc bc with
    | none => none
    | some tile' => fillList tc rest tile'

/-- The border-filling loop of Go `Evolve`, visiting the Border entries in the
order given (Go map iteration order is unspecified); `t.Cells[id]` out of
range models as `none` (a Go panic). -/
def fillBorder (cells : List Cell) : List (Nat × List Cell) → BGrid → Option BGrid
  | [], tile => some tile
  | (id, v) :: rest, tile =>
    match cells[id]? with
    | none => none
    | some tc =>
      match fillList tc v tile with
      | none => none
      | some tile' => fillBorder cells rest tile'

/-- The transition loop of Go `Evolve`:
`newTile[c.Row][c.Col] = evolveCell(tile, c.Row, c.Col)` for the cells of
`t.Cells[1:]`. -/
def evolveCells (tile : BGrid) : List Cell → BGrid → Option BGrid
  | [], newTile => some newTile
  | c :: rest, newTile =>
    match evolveCell tile c.row c.col with
    | none => none
    | some v =>
      match set2? newTile c.row c.col v with
      | none => none
      | some newTile' => evolveCells tile rest newTile'

/-- Go `Evolve`, with the Border entries visited in the order `entries`
(a permutation of `t.Border` chosen by the Go runtime). Returns the final
states of `tile` (mutated in place in Go) and `newTile`. -/
def EvolveOrd (t : Pattern) (entries : List (Nat × List Cell))
    (tile newTile : BGrid) : Option (BGrid × BGrid) :=
  match fillBorder t.Cells entries tile with
  | none => none
  | some tile' =>
    match evolveCells tile' (t.Cells.drop 1) newTile with
    | none => none
    | some newTile' => some (tile', newTile')

/-- Go `Evolve` with the Border entries visited in insertion order. -/
def Evolve (t : Pattern) (tile newTile : BGrid) : Option (BGrid × BGrid) :=
  EvolveOrd t t.Border tile newTile

/-! ## Auxiliary definitions used by the statements -/

/-- The row lengths of a grid; two grids with the same `dims` have the same
in-bounds positions. -/
def dims (g : List (List α)) : List Nat := g.map List.length

/-- The grid is rectangular with `rows` rows and `cols` columns. -/
def Rect (g : List (List α)) (rows cols : Nat) : Prop :=
  g.length = rows ∧ ∀ row ∈ g, row.length = cols

instance (g : List (List α)) (rows cols : Nat) : Decidable (Rect g rows cols) :=
  inferInstanceAs (Decidable (_ ∧ _))

/-- Nat-indexed grid read. -/
def get2N (g : List (List α)) (i j : Nat) : Option α :=
  g[i]?.bind (fun row => row[j]?)

/-- The live coordinates of one mask row, left to right, the row being row `i`
and starting at column `j`. -/
def trueCoordsRow (i j : Int) : List Bool → List Cell
  | [] => []
  | b :: rest =>
    if b then Cell.mk i j :: trueCoordsRow i (j + 1) rest
    else trueCoordsRow i (j + 1) rest

/-- The live coordinates of the mask rows starting at row `i`, row-major. -/
def trueCoordsRows (i : Int) : BGrid → List Cell
  | [] => []
  | row :: rest => trueCoordsRow i 0 row ++ trueCoordsRows (i + 1) rest

/-- The coordinates where the mask is true, in row-major scan order. -/
def trueCoords (mask : BGrid) : List Cell := trueCoordsRows 0 mask

/-- The overlap condition checked by Go `New` for one cell and one rule: the
translated coordinate is in range and the original mask is live there. -/
def overlapAt (mask : BGrid) (rows cols : Nat) (c : Cell) (r : Offset) : Bool :=
  inRange rows cols (c.row + r.row) (c.col + r.col) &&
    (maskAt mask (c.row + r.row) (c.col + r.col) == alive)

/-- The border candidate produced by Go `New` for one cell and one rule: the
translated coordinate when it is in range, dead in the original mask, and has
at least one live neighbor. -/
def borderCand (mask : BGrid) (rows cols : Nat) (c : Cell) (r : Offset) : Option Cell :=
  let row := c.row + r.row
  let col := c.col + r.col
  if inRange rows cols row col &&
      (maskAt mask row col == dead) && decide (countNeighbors mask row col > 0) then
    some (Cell.mk row col)
  else none

/-- The eight Moore-neighborhood displacements. -/
def mooreOffsets : List (Int × Int) :=
  [(-1, -1), (-1, 0), (-1, 1), (0, -1), (0, 1), (1, -1), (1, 0), (1, 1)]

/-- Modelled from the spec: the count of live Moore neighbors of a coordinate,
out-of-bounds positions counting as dead. -/
def specLiveNeighbors (g : BGrid) (c : Cell) : Nat :=
  (mooreOffsets.filter (fun d => (get2? g (c.row + d.1) (c.col + d.2)).getD false)).length

/-- Modelled from the spec: the standard Game of Life transition — a live cell
survives with 2 or 3 live neighbors, a dead cell is born with exactly 3. -/
def specLifeRule (st : Bool) (n : Nat) : Bool :=
  if st then decide (n = 2 ∨ n = 3) else decide (n = 3)

/-- The overlap condition of claim C1, quantified over the in-tile cells only
(identifiers `1..N`, i.e. the mask-true coordinates). -/
def inTileOverlap (mask : BGrid) (rules : List Offset) : Bool :=
  (trueCoords mask).any (fun c =>
    rules.any (fun r => overlapAt mask mask.length (cols0 mask) c r))

/-- Extract the pattern of a successful construction (the error case never
occurs where this is used). -/
def getPat (e : Except OverlapError Pattern) : Pattern :=
  match e with
  | .ok p => p
  | .error _ => ⟨0, 0, [], [], []⟩

/-! ## Concrete instances used by counterexamples and witnesses -/

/-- A 1×2 mask whose only live cell is at (0,1). -/
def cexMask1 : BGrid := [[false, true]]

/-- A single rule sliding the tile one column to the right. -/
def cexRules1 : List Offset := [⟨0, 1⟩]

/-- A 1×4 mask with live cells at (0,1) and (0,3). -/
def cexMask10 : BGrid := [[false, true, false, true]]

/-- Rules for which the first overlap is found at identifier 1, although the
second rule's offset lands on a live mask cell. -/
def cexRules10 : List Offset := [⟨0, 2⟩, ⟨0, 1⟩]

/-- A 3×3 mask whose only live cell is the center. -/
def cexMask5 : BGrid :=
  [[false, false, false], [false, true, false], [false, false, false]]

/-- Rules whose border map makes the sentinel's read coordinate (0,0) also a
border write target. -/
def cexRules5 : List Offset := [⟨-1, -1⟩, ⟨0, 1⟩]

/-- The pattern built from `cexMask5` and `cexRules5`. -/
def cexPat5 : Pattern := getPat (New cexMask5 cexRules5)

/-- A current grid with only the center cell live. -/
def cexCur5 : BGrid :=
  [[false, false, false], [false, true, false], [false, false, false]]

/-- An all-dead output buffer. -/
def cexNext5 : BGrid :=
  [[false, false, false], [false, false, false], [false, false, false]]

/-- Rules whose border entries touch neither entry's read coordinate. -/
def witRules5 : List Offset := [⟨1, 0⟩]

/-- The pattern built from `cexMask5` and `witRules5`. -/
def witPat5 : Pattern := getPat (New cexMask5 witRules5)

/-- A 4×4 mask holding a 2×2 block, the classic still life. -/
def witMaskB : BGrid :=
  [[false, false, false, false], [false, true, true, false],
   [false, true, true, false], [false, false, false, false]]

/-- The block pattern with no tessellation rules. -/
def witPatB : Pattern := getPat (New witMaskB [])

/-- An all-dead 4×4 buffer. -/
def witNextB : BGrid := List.replicate 4 (List.replicate 4 false)

/-! ## Grid access lemmas -/

theorem get2?_natCast (g : List (List α)) (i j : Nat) :
    get2? g (i : Int) (j : Int) = get2N g i j := by
  unfold get2?
  rw [if_pos ⟨Int.ofNat_nonneg i, Int.ofNat_nonneg j⟩]
  simp only [Int.toNat_ofNat, get2N]

theorem get2?_isSome_iff {g : List (List α)} {r c : Int} :
    (get2? g r c).isSome ↔
      0 ≤ r ∧ 0 ≤ c ∧ ∃ row, g[r.toNat]? = some row ∧ c.toNat < row.length := by
  unfold get2?
  by_cases hr : 0 ≤ r ∧ 0 ≤ c
  · rw [if_pos hr]
    cases hrow : g[r.toNat]? with
    | none => simp [hr.1, hr.2]
    | some row =>
      simp only [Option.some_bind, hr.1, hr.2, true_and]
      constructor
      · intro h
        refine ⟨row, rfl, ?_⟩
        by_contra hc
        rw [List.getElem?_eq_none (Nat.le_of_not_lt hc)] at h
        simp at h
      · rintro ⟨row', hrow', hlt⟩
        cases hrow'
        simp [List.getElem?_eq_getElem hlt]
  · rw [if_neg hr]
    simp only [Option.isSome_none, Bool.false_eq_true, false_iff]
    intro h
    exact hr ⟨h.1, h.2.1⟩

theorem dims_getElem? (g : List (List α)) (i : Nat) :
    (dims g)[i]? = g[i]?.map List.length := by
  simp [dims]

theorem get2?_isSome_congr {g h : List (List α)} (hd : dims g = dims h) (r c : Int) :
    (get2? g r c).isSome = (get2? h r c).isSome := by
  have hlen : ∀ i : Nat, g[i]?.map List.length = h[i]?.map List.length := by
    intro i
    rw [← dims_getElem?, ← dims_getElem?, hd]
  rw [Bool.eq_iff_iff, get2?_isSome_iff, get2?_isSome_iff]
  constructor
  · rintro ⟨h1, h2, row, hrow, hlt⟩
    have := hlen r.toNat
    rw [hrow] at this
    cases hrow2 : h[r.toNat]? with
    | none => rw [hrow2] at this; simp at this
    | some row2 =>
      rw [hrow2] at this
      simp only [Option.map_some', Option.some.injEq] at this
      exact ⟨h1, h2, row2, rfl, this ▸ hlt⟩
  · rintro ⟨h1, h2, row, hrow, hlt⟩
    have := hlen r.toNat
    rw [hrow] at this
    cases hrow2 : g[r.toNat]? with
    | none => rw [hrow2] at this; simp at this
    | some row2 =>
      rw [hrow2] at this
      simp only [Option.map_some', Option.some.injEq] at this
      exact ⟨h1, h2, row2, rfl, this.symm ▸ hlt⟩

theorem set2?_eq_some_iff {g : List (List α)} {r c : Int} {v : α} {g' : List (List α)} :
    set2? g r c v = some g' ↔
      0 ≤ r ∧ 0 ≤ c ∧ ∃ row, g[r.toNat]? = some row ∧ c.toNat < row.length ∧
        g' = g.set r.toNat (row.set c.toNat v) := by
  unfold set2?
  by_cases hr : 0 ≤ r ∧ 0 ≤ c
  · rw [if_pos hr]
    cases hrow : g[r.toNat]? with
    | none =>
      simp only [Option.none_bind, hr.1, hr.2, true_and]
      constructor
      · intro h; cases h
      · rintro ⟨row', hrow', _⟩; cases hrow'
    | some row =>
      simp only [Option.some_bind]
      by_cases hc : c.toNat < row.length
      · rw [if_pos hc]
        simp only [Option.some.injEq, hr.1, hr.2, true_and]
        constructor
        · intro h
          exact ⟨row, rfl, hc, h.symm⟩
        · rintro ⟨row', hrow', _, rfl⟩
          cases hrow'
          rfl
      · rw [if_neg hc]
        simp only [hr.1, hr.2, true_and]
        constructor
        · intro h; cases h
        · rintro ⟨row', hrow', hlt, _⟩
          cases hrow'
          exact absurd hlt hc
  · rw [if_neg hr]
    constructor
    · intro h; cases h
    · rintro ⟨hr1, hr2, _⟩
      exact absurd ⟨hr1, hr2⟩ hr

theorem set2?_isSome_iff {g : List (List α)} {r c : Int} {v : α} :
    (set2? g r c v).isSome ↔
      0 ≤ r ∧ 0 ≤ c ∧ ∃ row, g[r.toNat]? = some row ∧ c.toNat < row.length := by
  cases hs : set2? g r c v with
  | some g' =>
    obtain ⟨h1, h2, row, hrow, hlt, _⟩ := set2?_eq_some_iff.mp hs
    simp only [Option.isSome_some, true_iff]
    exact ⟨h1, h2, row, hrow, hlt⟩
  | none =>
    simp only [Option.isSome_none, Bool.false_eq_true, false_iff]
    rintro ⟨h1, h2, row, hrow, hlt⟩
    have : set2? g r c v = some (g.set r.toNat (row.set c.toNat v)) :=
      set2?_eq_some_iff.mpr ⟨h1, h2, row, hrow, hlt, rfl⟩
    rw [hs] at this
    cases this

theorem set2?_isSome (g : List (List α)) (r c : Int) (v : α) :
    (set2? g r c v).isSome = (get2? g r c).isSome := by
  rw [Bool.eq_iff_iff, set2?_isSome_iff, get2?_isSome_iff]

theorem dims_set2? {g g' : List (List α)} {r c : Int} {v : α}
    (h : set2? g r c v = some g') : dims g' = dims g := by
  obtain ⟨h1, h2, row, hrow, hlt, rfl⟩ := set2?_eq_some_iff.mp h
  apply List.ext_getElem?
  intro i
  rw [dims_getElem?, dims_getElem?]
  by_cases hi : i = r.toNat
  · subst hi
    rw [List.getElem?_set_self', hrow]
    simp
  · rw [List.getElem?_set_ne (fun hh => hi hh.symm)]

theorem get2?_set2?_self {g g' : List (List α)} {r c : Int} {v : α}
    (h : set2? g r c v = some g') : get2? g' r c = some v := by
  obtain ⟨h1, h2, row, hrow, hlt, rfl⟩ := set2?_eq_some_iff.mp h
  unfold get2?
  rw [if_pos ⟨h1, h2⟩]
  have hrlen : r.toNat < g.length := by
    by_contra hc
    rw [List.getElem?_eq_none (Nat.le_of_not_lt hc)] at hrow
    cases hrow
  rw [List.getElem?_set_eq_of_lt _ hrlen]
  simp only [Option.some_bind]
  exact List.getElem?_set_eq_of_lt _ hlt

theorem get2?_set2?_ne {g g' : List (List α)} {r c r' c' : Int} {v : α}
    (h : set2? g r c v = some g') (hne : ¬(r' = r ∧ c' = c)) :
    get2? g' r' c' = get2? g r' c' := by
  obtain ⟨h1, h2, row, hrow, hlt, rfl⟩ := set2?_eq_some_iff.mp h
  unfold get2?
  by_cases hb : 0 ≤ r' ∧ 0 ≤ c'
  · rw [if_pos hb, if_pos hb]
    by_cases hr : r'.toNat = r.toNat
    · have hrr : r' = r := by omega
      have hcc : ¬ c' = c := fun hc => hne ⟨hrr, hc⟩
      have hcn : c'.toNat ≠ c.toNat := by omega
      rw [hr, List.getElem?_set_self', hrow]
      simp only [Option.map_some', Option.some_bind]
      exact List.getElem?_set_ne (fun hh => hcn hh.symm)
    · rw [List.getElem?_set_ne (fun hh => hr hh.symm)]
  · rw [if_neg hb, if_neg hb]

theorem grid_ext {g h : List (List α)} (hd : dims g = dims h)
    (hp : ∀ r c : Int, get2? g r c = get2? h r c) : g = h := by
  have hlen : g.length = h.length := by
    have := congrArg List.length hd
    simpa [dims] using this
  apply List.ext_getElem?
  intro i
  cases hrow : g[i]? with
  | none =>
    have hgi : g.length ≤ i := List.getElem?_eq_none_iff.mp hrow
    exact (List.getElem?_eq_none (by omega)).symm
  | some row =>
    have hi : i < g.length := by
      by_contra hc
      rw [List.getElem?_eq_none (Nat.le_of_not_lt hc)] at hrow
      cases hrow
    cases hrow2 : h[i]? with
    | none =>
      rw [List.getElem?_eq_none_iff] at hrow2
      omega
    | some row2 =>
      have hd1 := dims_getElem? g i
      have hd2 := dims_getElem? h i
      rw [hrow] at hd1
      rw [hrow2] at hd2
      rw [hd, hd2] at hd1
      have hrl : row2.length = row.length := by simpa using hd1
      congr 1
      apply List.ext_getElem?
      intro j
      have hgj := hp (i : Int) (j : Int)
      unfold get2? at hgj
      rw [if_pos ⟨Int.ofNat_nonneg i, Int.ofNat_nonneg j⟩] at hgj
      simp only [Int.toNat_ofNat, hrow, hrow2, Option.some_bind] at hgj
      exact hgj

/-! ## Mask scan lemmas -/

theorem scanRow_fst (row : List Bool) (i j : Int) (id : Nat) :
    (scanRow i j id row).1 = id + (trueCoordsRow i j row).length := by
  induction row generalizing j id with
  | nil => rfl
  | cons b rest ih =>
    cases b with
    | true =>
      simp only [scanRow, trueCoordsRow, alive, if_pos]
      rw [ih]
      simp only [List.length_cons]
      omega
    | false =>
      simp only [scanRow, trueCoordsRow, alive]
      rw [if_neg (by decide), if_neg (by decide)]
      exact ih _ _

theorem scanRow_cells (row : List Bool) (i j : Int) (id : Nat) :
    (scanRow i j id row).2.2 = trueCoordsRow i j row := by
  induction row generalizing j id with
  | nil => rfl
  | cons b rest ih =>
    cases b with
    | true =>
      simp only [scanRow, trueCoordsRow, alive, if_pos]
      simp only [List.cons.injEq, true_and]
      exact ih _ _
    | false =>
      simp only [scanRow, trueCoordsRow, alive]
      rw [if_neg (by decide), if_neg (by decide)]
      exact ih _ _

theorem scanRow_grid_getElem? (row : List Bool) (i j : Int) (id k : Nat) :
    (scanRow i j id row).2.1[k]? =
      (row[k]?).map (fun b =>
        if b then id + 1 + (trueCoordsRow i j (row.take k)).length else 0) := by
  induction row generalizing j id k with
  | nil => simp [scanRow]
  | cons b rest ih =>
    cases k with
    | zero =>
      cases b with
      | true =>
        simp only [scanRow, alive, if_pos]
        simp [List.take_zero, trueCoordsRow]
      | false =>
        simp only [scanRow, alive]
        rw [if_neg (by decide)]
        simp [List.take_zero, trueCoordsRow]
    | succ k =>
      cases b with
      | true =>
        simp only [scanRow, alive, if_pos, List.getElem?_cons_succ, List.take_succ_cons,
          trueCoordsRow]
        rw [ih]
        congr 1
        funext b2
        cases b2 <;> simp <;> omega
      | false =>
        simp only [scanRow, alive, List.getElem?_cons_succ, List.take_succ_cons, trueCoordsRow]
        rw [if_neg (by decide), if_neg (by decide)]
        show (0 :: (scanRow i (j + 1) id rest).2.1)[k + 1]? = _
        rw [List.getElem?_cons_succ, ih]

theorem scanRows_fst (m : BGrid) (i : Int) (id : Nat) :
    (scanRows i id m).1 = id + (trueCoordsRows i m).length := by
  induction m generalizing i id with
  | nil => rfl
  | cons row rest ih =>
    simp only [scanRows, trueCoordsRows, List.length_append]
    rw [ih, scanRow_fst]
    omega

theorem scanRows_cells (m : BGrid) (i : Int) (id : Nat) :
    (scanRows i id m).2.2 = trueCoordsRows i m := by
  induction m generalizing i id with
  | nil => rfl
  | cons row rest ih =>
    simp only [scanRows, trueCoordsRows]
    rw [ih, scanRow_cells]

theorem scanRows_grid_getElem? (m : BGrid) (i : Int) (id r : Nat) :
    (scanRows i id m).2.1[r]? =
      (m[r]?).map (fun row =>
        (scanRow (i + r) 0 (id + (trueCoordsRows i (m.take r)).length) row).2.1) := by
  induction m generalizing i id r with
  | nil => simp [scanRows]
  | cons row rest ih =>
    cases r with
    | zero =>
      simp only [scanRows, List.getElem?_cons_zero, Option.map_some', List.take_zero,
        trueCoordsRows, List.length_nil, Nat.add_zero, Nat.cast_zero, Int.add_zero]
    | succ r =>
      simp only [scanRows, List.getElem?_cons_succ, List.take_succ_cons, trueCoordsRows]
      rw [ih]
      have harg1 : ((i + 1) + (r : Nat) : Int) = i + ((r + 1 : Nat) : Int) := by
        push_cast
        ring
      have harg2 : (scanRow i 0 id row).1 + (trueCoordsRows (i + 1) (rest.take r)).length =
          id + (trueCoordsRow i 0 row ++ trueCoordsRows (i + 1) (rest.take r)).length := by
        rw [scanRow_fst]
        simp only [List.length_append]
        omega
      simp only [harg1, harg2]

/-! ## trueCoords coordinate lemmas -/

theorem trueCoordsRow_getElem? {row : List Bool} {i j : Int} {n : Nat} {c : Cell}
    (h : (trueCoordsRow i j row)[n]? = some c) :
    c.row = i ∧ ∃ k : Nat, c.col = j + k ∧ row[k]? = some true ∧
      n = (trueCoordsRow i j (row.take k)).length := by
  induction row generalizing j n with
  | nil => simp [trueCoordsRow] at h
  | cons b rest ih =>
    by_cases hb : b = true
    · rw [trueCoordsRow, if_pos hb] at h
      cases n with
      | zero =>
        simp only [List.getElem?_cons_zero, Option.some.injEq] at h
        subst h
        exact ⟨rfl, 0, by simp, by simp [hb], by simp [trueCoordsRow]⟩
      | succ n =>
        simp only [List.getElem?_cons_succ] at h
        obtain ⟨hr, k, hcol, hk, hn⟩ := ih h
        refine ⟨hr, k + 1, by push_cast at hcol ⊢; omega, by simpa using hk, ?_⟩
        rw [List.take_succ_cons, trueCoordsRow, if_pos hb]
        simp only [List.length_cons]
        omega
    · rw [trueCoordsRow, if_neg hb] at h
      obtain ⟨hr, k, hcol, hk, hn⟩ := ih h
      refine ⟨hr, k + 1, by push_cast at hcol ⊢; omega, by simpa using hk, ?_⟩
      rw [List.take_succ_cons, trueCoordsRow, if_neg hb]
      exact hn

theorem trueCoordsRow_getElem?_of {row : List Bool} {k : Nat} (i j : Int)
    (h : row[k]? = some true) :
    (trueCoordsRow i j row)[(trueCoordsRow i j (row.take k)).length]? =
      some (Cell.mk i (j + k)) := by
  induction row generalizing j k with
  | nil => simp at h
  | cons b rest ih =>
    cases k with
    | zero =>
      simp only [List.getElem?_cons_zero, Option.some.injEq] at h
      subst h
      simp [trueCoordsRow, List.take_zero]
    | succ k =>
      simp only [List.getElem?_cons_succ] at h
      by_cases hb : b = true
      · rw [trueCoordsRow, if_pos hb, List.take_succ_cons, trueCoordsRow, if_pos hb]
        simp only [List.length_cons, List.getElem?_cons_succ]
        have := ih (j := j + 1) h
        rw [this]
        congr 2
        push_cast
        ring
      · rw [trueCoordsRow, if_neg hb, List.take_succ_cons, trueCoordsRow, if_neg hb]
        have := ih (j := j + 1) h
        rw [this]
        congr 2
        push_cast
        ring

theorem trueCoordsRows_cons (i : Int) (row : List Bool) (rest : BGrid) :
    trueCoordsRows i (row :: rest) = trueCoordsRow i 0 row ++ trueCoordsRows (i + 1) rest := rfl

theorem trueCoordsRow_mem {c : Cell} {i j : Int} {row : List Bool}
    (h : c ∈ trueCoordsRow i j row) : c.row = i ∧ j ≤ c.col := by
  induction row generalizing j with
  | nil => simp [trueCoordsRow] at h
  | cons b rest ih =>
    by_cases hb : b = true
    · rw [trueCoordsRow, if_pos hb] at h
      rcases List.mem_cons.mp h with h1 | h2
      · subst h1
        exact ⟨rfl, le_refl _⟩
      · obtain ⟨h1, h2⟩ := ih h2
        exact ⟨h1, by omega⟩
    · rw [trueCoordsRow, if_neg hb] at h
      obtain ⟨h1, h2⟩ := ih h
      exact ⟨h1, by omega⟩

theorem trueCoordsRow_pairwise (i j : Int) (row : List Bool) :
    (trueCoordsRow i j row).Pairwise (fun a b => a.col < b.col) := by
  induction row generalizing j with
  | nil => exact List.Pairwise.nil
  | cons b rest ih =>
    by_cases hb : b = true
    · rw [trueCoordsRow, if_pos hb]
      refine List.Pairwise.cons ?_ (ih _)
      intro c hc
      have h2 := (trueCoordsRow_mem hc).2
      simp only
      omega
    · rw [trueCoordsRow, if_neg hb]
      exact ih _

theorem trueCoordsRows_mem {c : Cell} {i : Int} {m : BGrid}
    (h : c ∈ trueCoordsRows i m) : i ≤ c.row := by
  induction m generalizing i with
  | nil => simp [trueCoordsRows] at h
  | cons row rest ih =>
    rw [trueCoordsRows] at h
    rcases List.mem_append.mp h with h1 | h2
    · exact le_of_eq (trueCoordsRow_mem h1).1.symm
    · have := ih h2
      omega

theorem trueCoordsRows_pairwise (i : Int) (m : BGrid) :
    (trueCoordsRows i m).Pairwise
      (fun a b => a.row < b.row ∨ (a.row = b.row ∧ a.col < b.col)) := by
  induction m generalizing i with
  | nil => exact List.Pairwise.nil
  | cons row rest ih =>
    rw [trueCoordsRows, List.pairwise_append]
    refine ⟨?_, ih _, ?_⟩
    · refine List.Pairwise.imp_of_mem ?_ (trueCoordsRow_pairwise i 0 row)
      intro a b ha hb hab
      right
      exact ⟨(trueCoordsRow_mem ha).1.trans (trueCoordsRow_mem hb).1.symm, hab⟩
    · intro a ha b hb
      have h1 := (trueCoordsRow_mem ha).1
      have h2 := trueCoordsRows_mem hb
      left
      omega

theorem trueCoords_nodup (mask : BGrid) : (trueCoords mask).Nodup := by
  refine (trueCoordsRows_pairwise 0 mask).imp ?_
  intro a b hab heq
  subst heq
  rcases hab with h | ⟨_, h⟩ <;> omega

theorem trueCoordsRows_getElem? {m : BGrid} {i : Int} {n : Nat} {c : Cell}
    (h : (trueCoordsRows i m)[n]? = some c) :
    ∃ r k : Nat, c.row = i + r ∧ c.col = k ∧ ∃ row, m[r]? = some row ∧
      row[k]? = some true ∧
      n = (trueCoordsRows i (m.take r)).length +
        (trueCoordsRow (i + r) 0 (row.take k)).length := by
  induction m generalizing i n with
  | nil => simp [trueCoordsRows] at h
  | cons row rest ih =>
    rw [trueCoordsRows] at h
    rw [List.getElem?_append] at h
    by_cases hn : n < (trueCoordsRow i 0 row).length
    · rw [if_pos hn] at h
      obtain ⟨hr, k, hcol, hk, hlen⟩ := trueCoordsRow_getElem? h
      refine ⟨0, k, by simpa using hr, by simpa using hcol, row, by simp, hk, ?_⟩
      simp only [List.take_zero, trueCoordsRows, List.length_nil, Nat.zero_add]
      simpa using hlen
    · rw [if_neg hn] at h
      obtain ⟨r, k, hrow, hcol, row2, hrow2, hk, hlen⟩ := ih h
      refine ⟨r + 1, k, by push_cast at hrow ⊢; omega, hcol, row2, by simpa using hrow2, hk, ?_⟩
      rw [List.take_succ_cons, trueCoordsRows]
      simp only [List.length_append]
      have hcast : (i + 1) + (r : Int) = i + ((r + 1 : Nat) : Int) := by push_cast; ring
      rw [← hcast]
      omega

theorem trueCoordsRows_getElem?_of {m : BGrid} {row : List Bool} {r k : Nat} (i : Int)
    (hrow : m[r]? = some row) (hk : row[k]? = some true) :
    (trueCoordsRows i m)[(trueCoordsRows i (m.take r)).length +
        (trueCoordsRow (i + r) 0 (row.take k)).length]? =
      some (Cell.mk (i + r) k) := by
  induction m generalizing i r with
  | nil => simp at hrow
  | cons row0 rest ih =>
    cases r with
    | zero =>
      simp only [List.getElem?_cons_zero, Option.some.injEq] at hrow
      subst hrow
      simp only [List.take_zero, trueCoordsRows, List.length_nil, Nat.zero_add,
        Nat.cast_zero, Int.add_zero]
      rw [List.getElem?_append]
      have hget := @trueCoordsRow_getElem?_of row0 k i 0 hk
      have hlt : (trueCoordsRow i 0 (row0.take k)).length < (trueCoordsRow i 0 row0).length := by
        by_contra hc
        rw [List.getElem?_eq_none (Nat.le_of_not_lt hc)] at hget
        cases hget
      rw [if_pos hlt, hget]
      simp
    | succ r =>
      simp only [List.getElem?_cons_succ] at hrow
      rw [List.take_succ_cons, trueCoordsRows_cons, trueCoordsRows_cons, List.getElem?_append]
      have hcast : i + ((r + 1 : Nat) : Int) = (i + 1) + (r : Int) := by push_cast; ring
      have hih := ih (i := i + 1) hrow
      simp only [List.length_append]
      rw [if_neg (by omega)]
      have hidx : (trueCoordsRow i 0 row0).length +
            (trueCoordsRows (i + 1) (rest.take r)).length +
            (trueCoordsRow (i + (r + 1 : Nat)) 0 (row.take k)).length -
            (trueCoordsRow i 0 row0).length =
          (trueCoordsRows (i + 1) (rest.take r)).length +
            (trueCoordsRow ((i + 1) + r) 0 (row.take k)).length := by
        rw [hcast]
        omega
      rw [hidx, hih, hcast]

theorem mem_trueCoords_iff {mask : BGrid} {c : Cell} :
    c ∈ trueCoords mask ↔
      ∃ r k : Nat, c.row = r ∧ c.col = k ∧ get2N mask r k = some true := by
  constructor
  · intro h
    obtain ⟨n, hn⟩ := List.getElem?_of_mem h
    obtain ⟨r, k, hrow, hcol, row, hrow2, hk, _⟩ := trueCoordsRows_getElem? hn
    refine ⟨r, k, by simpa using hrow, hcol, ?_⟩
    rw [get2N, hrow2, Option.some_bind, hk]
  · rintro ⟨r, k, hrow, hcol, hget⟩
    rw [get2N] at hget
    cases hrow2 : mask[r]? with
    | none => rw [hrow2] at hget; cases hget
    | some row =>
      rw [hrow2, Option.some_bind] at hget
      have := trueCoordsRows_getElem?_of (m := mask) (r := r) (k := k) 0 hrow2 hget
      have hc : c = Cell.mk ((0 : Int) + r) k := by
        cases c
        simp only [Cell.mk.injEq]
        constructor
        · simpa using hrow
        · exact hcol
      rw [hc]
      exact List.getElem?_mem this

/-! ## Inversion of New -/

theorem New_ok_inv {mask : BGrid} {rules : List Offset} {p : Pattern}
    (h : New mask rules = .ok p) :
    p.rows = mask.length ∧ p.cols = cols0 mask ∧
    p.mask = (scanRows 0 0 mask).2.1 ∧
    p.Cells = Cell.mk 0 0 :: trueCoords mask ∧
    tessAll mask mask.length (cols0 mask)
      ((Cell.mk 0 0 :: trueCoords mask).enum) rules [] = .ok p.Border := by
  have hc : (scanRows 0 0 mask).2.2 = trueCoords mask := scanRows_cells mask 0 0
  simp only [New] at h
  split at h
  · cases h
  · rename_i B htess
    cases h
    rw [hc] at htess
    exact ⟨rfl, rfl, rfl, by rw [hc], htess⟩

/-- C4: for every mask on which New succeeds, identifiers 1..N are assigned by
a single row-major scan in encounter order: the Cell List is the sentinel
followed by exactly the row-major list of mask-true coordinates (which is
duplicate-free and enumerates exactly the true coordinates, so indices 1..N
map bijectively onto them), the internal id grid holds id at the id-th true
coordinate and 0 at every mask-false coordinate. -/
theorem C4_identifier_bijection {mask : BGrid} {rules : List Offset} {p : Pattern}
    (h : New mask rules = .ok p) :
    p.Cells = Cell.mk 0 0 :: trueCoords mask ∧
    (trueCoords mask).Nodup ∧
    (∀ c : Cell, c ∈ trueCoords mask ↔
      ∃ r k : Nat, c.row = r ∧ c.col = k ∧ get2N mask r k = some true) ∧
    (∀ (n : Nat) (c : Cell), (trueCoords mask)[n]? = some c →
      get2N p.mask c.row.toNat c.col.toNat = some (n + 1)) ∧
    (∀ r k : Nat, get2N mask r k = some false → get2N p.mask r k = some 0) := by
  obtain ⟨hrows, hcols, hmask, hcells, htess⟩ := New_ok_inv h
  refine ⟨hcells, trueCoords_nodup mask, fun c => mem_trueCoords_iff, ?_, ?_⟩
  · intro n c hn
    obtain ⟨r, k, hrow, hcol, row, hrowm, hk, hlen⟩ := trueCoordsRows_getElem? hn
    have hrN : c.row.toNat = r := by omega
    have hcN : c.col.toNat = k := by omega
    rw [hmask, hrN, hcN, get2N, scanRows_grid_getElem?, hrowm]
    simp only [Option.map_some', Option.some_bind]
    rw [scanRow_grid_getElem?, hk]
    simp only [Option.map_some', eq_self_iff_true, if_true, Option.some.injEq]
    rw [hlen]
    ring
  · intro r k hget
    rw [get2N] at hget
    cases hrowm : mask[r]? with
    | none => rw [hrowm] at hget; cases hget
    | some row =>
      rw [hrowm, Option.some_bind] at hget
      rw [hmask, get2N, scanRows_grid_getElem?, hrowm]
      simp only [Option.map_some', Option.some_bind]
      rw [scanRow_grid_getElem?, hget]
      simp

/-- Witness for C4 at the 4×4 block mask. -/
theorem C4_identifier_bijection_witness :
    New witMaskB [] = .ok witPatB ∧
    witPatB.Cells = Cell.mk 0 0 :: trueCoords witMaskB ∧
    (trueCoords witMaskB).Nodup := by
  have h : New witMaskB [] = .ok witPatB := by rfl
  have hthm := C4_identifier_bijection h
  exact ⟨h, hthm.1, hthm.2.1⟩

/-! ## Tessellation characterization -/

theorem borderGet_borderAppend (B : List (Nat × List Cell)) (id k : Nat) (c : Cell) :
    borderGet (borderAppend B id c) k =
      if k = id then borderGet B k ++ [c] else borderGet B k := by
  induction B with
  | nil =>
    by_cases h : k = id
    · subst h
      simp [borderAppend, borderGet]
    · have h2 : ¬ id = k := fun hh => h hh.symm
      simp [borderAppend, borderGet, h, h2]
  | cons kv rest ih =>
    obtain ⟨k2, v⟩ := kv
    by_cases h1 : k2 = id
    · subst h1
      by_cases h2 : k = k2
      · subst h2
        simp [borderAppend, borderGet]
      · have h3 : ¬ k2 = k := fun hh => h2 hh.symm
        simp [borderAppend, borderGet, h2, h3]
    · by_cases h2 : k2 = k
      · subst h2
        simp [borderAppend, borderGet, h1, fun hh : k2 = id => h1 hh, ih]
      · simp [borderAppend, borderGet, h1, h2, ih]

theorem lookup_cons_self (k : Nat) (c : α) (rest : List (Nat × α)) :
    List.lookup k ((k, c) :: rest) = some c := by
  simp [List.lookup]

theorem lookup_cons_ne {k id : Nat} (hk : ¬ k = id) (c : α) (rest : List (Nat × α)) :
    List.lookup k ((id, c) :: rest) = List.lookup k rest := by
  rw [List.lookup, show (k == id) = false from by simpa using hk]

theorem lookup_eq_none_of_not_mem {k : Nat} {l : List (Nat × Cell)}
    (h : k ∉ l.map Prod.fst) : List.lookup k l = none := by
  induction l with
  | nil => rfl
  | cons kv rest ih =>
    obtain ⟨k2, v⟩ := kv
    simp only [List.map_cons, List.mem_cons] at h
    push_neg at h
    rw [lookup_cons_ne h.1]
    exact ih h.2

theorem tessRule_ok_iff {mask : BGrid} {rows cols : Nat} {rule : Offset}
    {l : List (Nat × Cell)} {B : List (Nat × List Cell)} :
    (∃ B', tessRule mask rows cols rule l B = .ok B') ↔
      ∀ p ∈ l, overlapAt mask rows cols p.2 rule = false := by
  induction l generalizing B with
  | nil => simp [tessRule]
  | cons idc rest ih =>
    obtain ⟨id, c⟩ := idc
    rw [tessRule]
    by_cases hin : inRange rows cols (c.row + rule.row) (c.col + rule.col) = true
    · rw [if_pos hin]
      by_cases hdead : maskAt mask (c.row + rule.row) (c.col + rule.col) = dead
      · rw [if_pos hdead]
        have hov : overlapAt mask rows cols c rule = false := by
          rw [overlapAt]
          simp only [Bool.and_eq_false_iff]
          right
          simp [hdead, dead, alive]
        by_cases hcnt : countNeighbors mask (c.row + rule.row) (c.col + rule.col) > 0
        · rw [if_pos hcnt, ih]
          simp [hov]
        · rw [if_neg hcnt, ih]
          simp [hov]
      · rw [if_neg hdead]
        have hov : overlapAt mask rows cols c rule = true := by
          rw [overlapAt, hin]
          simp only [Bool.true_and, beq_iff_eq, alive]
          simpa [dead] using hdead
        constructor
        · rintro ⟨B', hB⟩
          cases hB
        · intro hall
          have := hall (id, c) (List.mem_cons_self _ _)
          rw [hov] at this
          cases this
    · rw [if_neg hin, ih]
      have hov : overlapAt mask rows cols c rule = false := by
        rw [overlapAt]
        simp [Bool.and_eq_false_iff, hin]
      simp [hov]

theorem tessRule_error {mask : BGrid} {rows cols : Nat} {rule : Offset}
    {l : List (Nat × Cell)} {B : List (Nat × List Cell)} {e : OverlapError}
    (h : tessRule mask rows cols rule l B = .error e) :
    e.rule = rule ∧ ∃ c, (e.id, c) ∈ l ∧
      e.at_ = Cell.mk (c.row + rule.row) (c.col + rule.col) ∧
      overlapAt mask rows cols c rule = true := by
  induction l generalizing B with
  | nil => cases h
  | cons idc rest ih =>
    obtain ⟨id, c⟩ := idc
    rw [tessRule] at h
    by_cases hin : inRange rows cols (c.row + rule.row) (c.col + rule.col) = true
    · rw [if_pos hin] at h
      by_cases hdead : maskAt mask (c.row + rule.row) (c.col + rule.col) = dead
      · rw [if_pos hdead] at h
        by_cases hcnt : countNeighbors mask (c.row + rule.row) (c.col + rule.col) > 0
        · rw [if_pos hcnt] at h
          obtain ⟨he, c', hmem, hat, hov⟩ := ih h
          exact ⟨he, c', List.mem_cons_of_mem _ hmem, hat, hov⟩
        · rw [if_neg hcnt] at h
          obtain ⟨he, c', hmem, hat, hov⟩ := ih h
          exact ⟨he, c', List.mem_cons_of_mem _ hmem, hat, hov⟩
      · rw [if_neg hdead] at h
        cases h
        refine ⟨rfl, c, List.mem_cons_self _ _, rfl, ?_⟩
        rw [overlapAt, hin]
        simp only [Bool.true_and, beq_iff_eq, alive]
        simpa [dead] using hdead
    · rw [if_neg hin] at h
      obtain ⟨he, c', hmem, hat, hov⟩ := ih h
      exact ⟨he, c', List.mem_cons_of_mem _ hmem, hat, hov⟩

theorem tessRule_ok_borderGet {mask : BGrid} {rows cols : Nat} {rule : Offset}
    {l : List (Nat × Cell)} {B B' : List (Nat × List Cell)}
    (h : tessRule mask rows cols rule l B = .ok B')
    (hnd : (l.map Prod.fst).Nodup) (k : Nat) :
    borderGet B' k = borderGet B k ++
      (match List.lookup k l with
       | none => []
       | some c => (borderCand mask rows cols c rule).toList) := by
  induction l generalizing B with
  | nil =>
    cases h
    simp [List.lookup]
  | cons idc rest ih =>
    obtain ⟨id, c⟩ := idc
    simp only [List.map_cons, List.nodup_cons] at hnd
    obtain ⟨hid, hnd2⟩ := hnd
    rw [tessRule] at h
    by_cases hin : inRange rows cols (c.row + rule.row) (c.col + rule.col) = true
    · rw [if_pos hin] at h
      by_cases hdead : maskAt mask (c.row + rule.row) (c.col + rule.col) = dead
      · rw [if_pos hdead] at h
        by_cases hcnt : countNeighbors mask (c.row + rule.row) (c.col + rule.col) > 0
        · rw [if_pos hcnt] at h
          have hcand : borderCand mask rows cols c rule =
              some (Cell.mk (c.row + rule.row) (c.col + rule.col)) := by
            rw [borderCand]
            rw [if_pos]
            simp only [hin, hdead, Bool.true_and, beq_self_eq_true, decide_eq_true_eq]
            exact hcnt
          by_cases hk : k = id
          · subst hk
            rw [ih h hnd2, lookup_eq_none_of_not_mem hid, borderGet_borderAppend,
              if_pos rfl, lookup_cons_self]
            simp [hcand]
          · rw [ih h hnd2, borderGet_borderAppend, if_neg hk, lookup_cons_ne hk]
        · rw [if_neg hcnt] at h
          have hcand : borderCand mask rows cols c rule = none := by
            rw [borderCand, if_neg]
            simp only [hin, hdead, Bool.true_and, beq_self_eq_true, decide_eq_true_eq]
            exact hcnt
          by_cases hk : k = id
          · subst hk
            rw [ih h hnd2, lookup_eq_none_of_not_mem hid, lookup_cons_self]
            simp [hcand]
          · rw [ih h hnd2, lookup_cons_ne hk]
      · rw [if_neg hdead] at h
        cases h
    · rw [if_neg hin] at h
      have hcand : borderCand mask rows cols c rule = none := by
        rw [borderCand, if_neg]
        simp [hin]
      by_cases hk : k = id
      · subst hk
        rw [ih h hnd2, lookup_eq_none_of_not_mem hid, lookup_cons_self]
        simp [hcand]
      · rw [ih h hnd2, lookup_cons_ne hk]

theorem tessAll_ok_iff {mask : BGrid} {rows cols : Nat} {l : List (Nat × Cell)}
    {rules : List Offset} {B : List (Nat × List Cell)} :
    (∃ B2, tessAll mask rows cols l rules B = .ok B2) ↔
      ∀ r ∈ rules, ∀ p ∈ l, overlapAt mask rows cols p.2 r = false := by
  induction rules generalizing B with
  | nil => simp [tessAll]
  | cons rule rs ih =>
    cases htr : tessRule mask rows cols rule l B with
    | error e =>
      simp only [tessAll, htr]
      constructor
      · rintro ⟨B2, hB⟩
        cases hB
      · intro hall
        obtain ⟨he, c, hmem, hat, hov⟩ := tessRule_error htr
        have := hall rule (List.mem_cons_self _ _) (e.id, c) hmem
        rw [hov] at this
        cases this
    | ok B1 =>
      simp only [tessAll, htr]
      rw [ih]
      have hr : ∀ p ∈ l, overlapAt mask rows cols p.2 rule = false :=
        tessRule_ok_iff.mp ⟨B1, htr⟩
      rw [List.forall_mem_cons]
      constructor
      · intro hall
        exact ⟨hr, hall⟩
      · intro hall
        exact hall.2

theorem tessAll_error {mask : BGrid} {rows cols : Nat} {l : List (Nat × Cell)}
    {rules : List Offset} {B : List (Nat × List Cell)} {e : OverlapError}
    (h : tessAll mask rows cols l rules B = .error e) :
    e.rule ∈ rules ∧ ∃ c, (e.id, c) ∈ l ∧
      e.at_ = Cell.mk (c.row + e.rule.row) (c.col + e.rule.col) ∧
      overlapAt mask rows cols c e.rule = true := by
  induction rules generalizing B with
  | nil => cases h
  | cons rule rs ih =>
    rw [tessAll] at h
    cases htr : tessRule mask rows cols rule l B with
    | error e2 =>
      simp only [htr] at h
      cases h
      obtain ⟨he, c, hmem, hat, hov⟩ := tessRule_error htr
      rw [he]
      exact ⟨List.mem_cons_self _ _, c, hmem, hat, hov⟩
    | ok B1 =>
      simp only [htr] at h
      obtain ⟨he, c, hmem, hat, hov⟩ := ih h
      exact ⟨List.mem_cons_of_mem _ he, c, hmem, hat, hov⟩

theorem tessAll_ok_borderGet {mask : BGrid} {rows cols : Nat} {l : List (Nat × Cell)}
    {rules : List Offset} {B B2 : List (Nat × List Cell)}
    (h : tessAll mask rows cols l rules B = .ok B2)
    (hnd : (l.map Prod.fst).Nodup) (k : Nat) :
    borderGet B2 k = borderGet B k ++
      (match List.lookup k l with
       | none => []
       | some c => rules.filterMap (fun r => borderCand mask rows cols c r)) := by
  induction rules generalizing B with
  | nil =>
    cases h
    cases hl : List.lookup k l <;> simp
  | cons rule rs ih =>
    rw [tessAll] at h
    cases htr : tessRule mask rows cols rule l B with
    | error e =>
      simp only [htr] at h
      cases h
    | ok B1 =>
      simp only [htr] at h
      have h1 := tessRule_ok_borderGet htr hnd k
      have h2 := ih h
      rw [h2, h1]
      cases hl : List.lookup k l with
      | none => simp
      | some c =>
        simp only [List.filterMap_cons]
        cases hc : borderCand mask rows cols c rule <;>
          simp [List.append_assoc]

theorem enumFrom_lookup (l : List Cell) (n k : Nat) :
    List.lookup k (List.enumFrom n l) = if n ≤ k then l[k - n]? else none := by
  induction l generalizing n with
  | nil => simp [List.enumFrom, ite_self]
  | cons a tl ih =>
    rw [show List.enumFrom n (a :: tl) = (n, a) :: List.enumFrom (n + 1) tl from rfl]
    by_cases hk : k = n
    · subst hk
      rw [lookup_cons_self, if_pos (le_refl k)]
      simp
    · rw [lookup_cons_ne hk, ih]
      by_cases h1 : n + 1 ≤ k
      · rw [if_pos h1, if_pos (by omega)]
        have hs : k - n = (k - (n + 1)) + 1 := by omega
        rw [hs, List.getElem?_cons_succ]
      · rw [if_neg h1, if_neg (by omega)]

theorem enum_lookup (l : List Cell) (k : Nat) : List.lookup k l.enum = l[k]? := by
  rw [show l.enum = List.enumFrom 0 l from rfl, enumFrom_lookup]
  simp

theorem enum_fst_nodup (l : List α) : (l.enum.map Prod.fst).Nodup := by
  rw [List.enum_map_fst]
  exact List.nodup_range _

theorem New_ok_borderGet {mask : BGrid} {rules : List Offset} {p : Pattern}
    (h : New mask rules = .ok p) (k : Nat) :
    borderGet p.Border k =
      match (Cell.mk 0 0 :: trueCoords mask)[k]? with
      | none => []
      | some c => rules.filterMap
          (fun r => borderCand mask mask.length (cols0 mask) c r) := by
  obtain ⟨h1, h2, h3, h4, htess⟩ := New_ok_inv h
  have hb := tessAll_ok_borderGet htess (enum_fst_nodup _) k
  rw [enum_lookup] at hb
  simpa [borderGet] using hb

theorem New_error_iff {mask : BGrid} {rules : List Offset} :
    (∃ e, New mask rules = .error e) ↔
      ∃ r ∈ rules, ∃ (id : Nat) (c : Cell),
        (Cell.mk 0 0 :: trueCoords mask)[id]? = some c ∧
        overlapAt mask mask.length (cols0 mask) c r = true := by
  have hc : (scanRows 0 0 mask).2.2 = trueCoords mask := scanRows_cells mask 0 0
  constructor
  · rintro ⟨e, he⟩
    simp only [New] at he
    split at he
    · rename_i e2 htess
      cases he
      rw [hc] at htess
      obtain ⟨hr, c, hmem, hat, hov⟩ := tessAll_error htess
      exact ⟨e.rule, hr, e.id, c, List.mem_enum_iff_getElem?.mp hmem, hov⟩
    · cases he
  · rintro ⟨r, hr, id, c, hid, hov⟩
    cases hN : New mask rules with
    | error e => exact ⟨e, rfl⟩
    | ok p =>
      exfalso
      obtain ⟨h1, h2, h3, h4, htess⟩ := New_ok_inv hN
      have hall := tessAll_ok_iff.mp ⟨p.Border, htess⟩
      have hfalse := hall r hr (id, c) (List.mem_enum_iff_getElem?.mpr hid)
      rw [hov] at hfalse
      cases hfalse

theorem New_error_shape {mask : BGrid} {rules : List Offset} {e : OverlapError}
    (h : New mask rules = .error e) :
    e.rule ∈ rules ∧ ∃ c, (Cell.mk 0 0 :: trueCoords mask)[e.id]? = some c ∧
      e.at_ = Cell.mk (c.row + e.rule.row) (c.col + e.rule.col) ∧
      overlapAt mask mask.length (cols0 mask) c e.rule = true := by
  have hc : (scanRows 0 0 mask).2.2 = trueCoords mask := scanRows_cells mask 0 0
  simp only [New] at h
  split at h
  · rename_i e2 htess
    cases h
    rw [hc] at htess
    obtain ⟨hr, c, hmem, hat, hov⟩ := tessAll_error htess
    exact ⟨hr, c, List.mem_enum_iff_getElem?.mp hmem, hat, hov⟩
  · cases h

/-! ## Border fill lemmas -/

theorem fillOne_some_iff {tile tile' : BGrid} {tc bc : Cell} :
    fillOne tile tc bc = some tile' ↔
      ∃ v, get2? tile tc.row tc.col = some v ∧
        set2? tile bc.row bc.col v = some tile' := by
  rw [fillOne]
  cases hg : get2? tile tc.row tc.col with
  | none => simp
  | some v => simp

theorem fillOne_dims {tile tile' : BGrid} {tc bc : Cell}
    (h : fillOne tile tc bc = some tile') : dims tile' = dims tile := by
  obtain ⟨v, hg, hs⟩ := fillOne_some_iff.mp h
  exact dims_set2? hs

theorem fillOne_get_ne {tile tile' : BGrid} {tc bc : Cell} {r c : Int}
    (h : fillOne tile tc bc = some tile') (hne : ¬(r = bc.row ∧ c = bc.col)) :
    get2? tile' r c = get2? tile r c := by
  obtain ⟨v, hg, hs⟩ := fillOne_some_iff.mp h
  exact get2?_set2?_ne hs hne

theorem fillOne_get_self {tile tile' : BGrid} {tc bc : Cell}
    (h : fillOne tile tc bc = some tile') :
    get2? tile' bc.row bc.col = get2? tile tc.row tc.col := by
  obtain ⟨v, hg, hs⟩ := fillOne_some_iff.mp h
  rw [get2?_set2?_self hs, hg]

theorem fillOne_tc_stable {tile tile' : BGrid} {tc bc : Cell}
    (h : fillOne tile tc bc = some tile') :
    get2? tile' tc.row tc.col = get2? tile tc.row tc.col := by
  by_cases hb : tc.row = bc.row ∧ tc.col = bc.col
  · have hself := fillOne_get_self h
    rw [← hb.1, ← hb.2] at hself
    exact hself
  · exact fillOne_get_ne h hb

theorem fillOne_isSome_iff {tile : BGrid} {tc bc : Cell} :
    (∃ tile', fillOne tile tc bc = some tile') ↔
      (get2? tile tc.row tc.col).isSome ∧ (get2? tile bc.row bc.col).isSome := by
  constructor
  · rintro ⟨tile', h⟩
    obtain ⟨v, hg, hs⟩ := fillOne_some_iff.mp h
    refine ⟨by simp [hg], ?_⟩
    rw [← set2?_isSome tile bc.row bc.col v, hs]
    rfl
  · rintro ⟨hrd, hwr⟩
    obtain ⟨v, hv⟩ := Option.isSome_iff_exists.mp hrd
    rw [← set2?_isSome tile bc.row bc.col v] at hwr
    obtain ⟨tile', ht⟩ := Option.isSome_iff_exists.mp hwr
    exact ⟨tile', fillOne_some_iff.mpr ⟨v, hv, ht⟩⟩

theorem fillList_dims {tc : Cell} {v : List Cell} {tile tile' : BGrid}
    (h : fillList tc v tile = some tile') : dims tile' = dims tile := by
  induction v generalizing tile with
  | nil => cases h; rfl
  | cons bc rest ih =>
    rw [fillList] at h
    cases h1 : fillOne tile tc bc with
    | none => rw [h1] at h; cases h
    | some t1 =>
      rw [h1] at h
      exact (ih h).trans (fillOne_dims h1)

theorem fillList_get_not_mem {tc : Cell} {v : List Cell} {tile tile' : BGrid} {r c : Int}
    (h : fillList tc v tile = some tile')
    (hq : ∀ bc ∈ v, ¬(r = bc.row ∧ c = bc.col)) :
    get2? tile' r c = get2? tile r c := by
  induction v generalizing tile with
  | nil => cases h; rfl
  | cons bc rest ih =>
    rw [fillList] at h
    cases h1 : fillOne tile tc bc with
    | none => rw [h1] at h; cases h
    | some t1 =>
      rw [h1] at h
      rw [ih h (fun b hb => hq b (List.mem_cons_of_mem _ hb))]
      exact fillOne_get_ne h1 (hq bc (List.mem_cons_self _ _))

theorem fillList_tc_stable {tc : Cell} {v : List Cell} {tile tile' : BGrid}
    (h : fillList tc v tile = some tile') :
    get2? tile' tc.row tc.col = get2? tile tc.row tc.col := by
  induction v generalizing tile with
  | nil => cases h; rfl
  | cons bc rest ih =>
    rw [fillList] at h
    cases h1 : fillOne tile tc bc with
    | none => rw [h1] at h; cases h
    | some t1 =>
      rw [h1] at h
      rw [ih h]
      exact fillOne_tc_stable h1

theorem fillList_get_mem {tc : Cell} {v : List Cell} {tile tile' : BGrid} {bc : Cell}
    (h : fillList tc v tile = some tile') (hmem : bc ∈ v) :
    get2? tile' bc.row bc.col = get2? tile tc.row tc.col := by
  induction v generalizing tile with
  | nil => cases hmem
  | cons b rest ih =>
    rw [fillList] at h
    cases h1 : fillOne tile tc b with
    | none => rw [h1] at h; cases h
    | some t1 =>
      rw [h1] at h
      by_cases hr : bc ∈ rest
      · rw [ih h hr, fillOne_tc_stable h1]
      · have hb : bc = b := by
          rcases List.mem_cons.mp hmem with h2 | h2
          · exact h2
          · exact absurd h2 hr
        subst hb
        have hnm : ∀ b2 ∈ rest, ¬(bc.row = b2.row ∧ bc.col = b2.col) := by
          intro b2 hb2 hco
          apply hr
          have : bc = b2 := by
            cases bc; cases b2
            simp only [Cell.mk.injEq]
            exact ⟨hco.1, hco.2⟩
          rw [this]
          exact hb2
        rw [fillList_get_not_mem h hnm]
        exact fillOne_get_self h1

theorem fillList_isSome_iff {tc : Cell} {v : List Cell} {tile : BGrid} :
    (∃ tile', fillList tc v tile = some tile') ↔
      ((v ≠ [] → (get2? tile tc.row tc.col).isSome) ∧
        ∀ bc ∈ v, (get2? tile bc.row bc.col).isSome) := by
  induction v generalizing tile with
  | nil => simp [fillList]
  | cons bc rest ih =>
    rw [fillList]
    constructor
    · rintro ⟨tile', h⟩
      cases h1 : fillOne tile tc bc with
      | none => rw [h1] at h; cases h
      | some t1 =>
        rw [h1] at h
        obtain ⟨hrd, hwr⟩ := fillOne_isSome_iff.mp ⟨t1, h1⟩
        obtain ⟨hrd2, hwr2⟩ := ih.mp ⟨tile', h⟩
        have hdim := fillOne_dims h1
        refine ⟨fun _ => hrd, ?_⟩
        intro b hb
        rcases List.mem_cons.mp hb with h2 | h2
        · rw [h2]
          exact hwr
        · rw [← get2?_isSome_congr hdim]
          exact hwr2 b h2
    · rintro ⟨hrd, hwr⟩
      have hrd2 : (get2? tile tc.row tc.col).isSome := hrd (by simp)
      have hwr2 : (get2? tile bc.row bc.col).isSome := hwr bc (List.mem_cons_self _ _)
      obtain ⟨t1, h1⟩ := fillOne_isSome_iff.mpr ⟨hrd2, hwr2⟩
      have hdim := fillOne_dims h1
      have hex : ∃ tile', fillList tc rest t1 = some tile' := by
        apply ih.mpr
        constructor
        · intro hne
          rw [get2?_isSome_congr hdim]
          exact hrd2
        · intro b hb
          rw [get2?_isSome_congr hdim]
          exact hwr b (List.mem_cons_of_mem _ hb)
      obtain ⟨tile', h2⟩ := hex
      exact ⟨tile', by rw [h1]; exact h2⟩

theorem fillBorder_dims {cells : List Cell} {entries : List (Nat × List Cell)}
    {tile tile' : BGrid}
    (h : fillBorder cells entries tile = some tile') : dims tile' = dims tile := by
  induction entries generalizing tile with
  | nil => cases h; rfl
  | cons e rest ih =>
    obtain ⟨id, v⟩ := e
    rw [fillBorder] at h
    cases h1 : cells[id]? with
    | none => simp only [h1] at h; cases h
    | some tc =>
      simp only [h1] at h
      cases h2 : fillList tc v tile with
      | none => simp only [h2] at h; cases h
      | some t1 =>
        simp only [h2] at h
        exact (ih h).trans (fillList_dims h2)

theorem fillBorder_get_not_mem {cells : List Cell} {entries : List (Nat × List Cell)}
    {tile tile' : BGrid} {r c : Int}
    (h : fillBorder cells entries tile = some tile')
    (hq : ∀ e ∈ entries, ∀ bc ∈ e.2, ¬(r = bc.row ∧ c = bc.col)) :
    get2? tile' r c = get2? tile r c := by
  induction entries generalizing tile with
  | nil => cases h; rfl
  | cons e rest ih =>
    obtain ⟨id, v⟩ := e
    rw [fillBorder] at h
    cases h1 : cells[id]? with
    | none => simp only [h1] at h; cases h
    | some tc =>
      simp only [h1] at h
      cases h2 : fillList tc v tile with
      | none => simp only [h2] at h; cases h
      | some t1 =>
        simp only [h2] at h
        rw [ih h (fun e2 he2 => hq e2 (List.mem_cons_of_mem _ he2))]
        exact fillList_get_not_mem h2 (hq (id, v) (List.mem_cons_self _ _))

theorem fillBorder_isSome_iff {cells : List Cell} {entries : List (Nat × List Cell)}
    {tile : BGrid} :
    (∃ tile', fillBorder cells entries tile = some tile') ↔
      ∀ e ∈ entries, ∃ tc, cells[e.1]? = some tc ∧
        (e.2 ≠ [] → (get2? tile tc.row tc.col).isSome) ∧
        ∀ bc ∈ e.2, (get2? tile bc.row bc.col).isSome := by
  induction entries generalizing tile with
  | nil => simp [fillBorder]
  | cons e rest ih =>
    obtain ⟨id, v⟩ := e
    rw [fillBorder]
    cases h1 : cells[id]? with
    | none =>
      constructor
      · rintro ⟨t, ht⟩
        cases ht
      · intro hall
        obtain ⟨tc, htc, _⟩ := hall (id, v) (List.mem_cons_self _ _)
        rw [h1] at htc
        cases htc
    | some tc =>
      constructor
      · rintro ⟨tile', ht⟩
        cases h2 : fillList tc v tile with
        | none => simp only [h2] at ht; cases ht
        | some t1 =>
          simp only [h2] at ht
          have hdim := fillList_dims h2
          obtain ⟨hrd, hwr⟩ := fillList_isSome_iff.mp ⟨t1, h2⟩
          intro e2 he2
          rcases List.mem_cons.mp he2 with rfl | he3
          · exact ⟨tc, h1, hrd, hwr⟩
          · obtain ⟨tc2, htc2, hrd2, hwr2⟩ := ih.mp ⟨tile', ht⟩ e2 he3
            refine ⟨tc2, htc2, ?_, ?_⟩
            · intro hne
              rw [← get2?_isSome_congr hdim]
              exact hrd2 hne
            · intro bc hbc
              rw [← get2?_isSome_congr hdim]
              exact hwr2 bc hbc
      · intro hall
        obtain ⟨tc0, htc0, hrd, hwr⟩ := hall (id, v) (List.mem_cons_self _ _)
        rw [h1] at htc0
        cases htc0
        obtain ⟨t1, h2⟩ := fillList_isSome_iff.mpr ⟨hrd, hwr⟩
        have hdim := fillList_dims h2
        have hex : ∃ tile', fillBorder cells rest t1 = some tile' := by
          apply ih.mpr
          intro e2 he2
          obtain ⟨tc2, htc2, hrd2, hwr2⟩ := hall e2 (List.mem_cons_of_mem _ he2)
          refine ⟨tc2, htc2, fun hne => ?_, fun bc hbc => ?_⟩
          · rw [get2?_isSome_congr hdim]
            exact hrd2 hne
          · rw [get2?_isSome_congr hdim]
            exact hwr2 bc hbc
        obtain ⟨tile', ht⟩ := hex
        refine ⟨tile', ?_⟩
        simp only [h2]
        exact ht

theorem fillBorder_values {cells : List Cell} {entries : List (Nat × List Cell)}
    {tile tile' : BGrid}
    (h : fillBorder cells entries tile = some tile')
    (hdisj : ∀ e ∈ entries, ∀ tc, cells[e.1]? = some tc → ∀ e2 ∈ entries, tc ∉ e2.2)
    (huw : ∀ e1 ∈ entries, ∀ e2 ∈ entries, ∀ q, q ∈ e1.2 → q ∈ e2.2 → e1.1 = e2.1) :
    ∀ id v bc, (id, v) ∈ entries → bc ∈ v →
      ∃ tc, cells[id]? = some tc ∧
        get2? tile' bc.row bc.col = get2? tile tc.row tc.col := by
  induction entries generalizing tile with
  | nil =>
    intro id v bc hmem hbc
    cases hmem
  | cons e rest ih =>
    obtain ⟨id2, v2⟩ := e
    intro id v bc hmem hbc
    rw [fillBorder] at h
    cases h1 : cells[id2]? with
    | none => simp only [h1] at h; cases h
    | some tc2 =>
      simp only [h1] at h
      cases h2 : fillList tc2 v2 tile with
      | none => simp only [h2] at h; cases h
      | some t1 =>
        simp only [h2] at h
        have hdisj2 : ∀ e2 ∈ rest, ∀ tc, cells[e2.1]? = some tc →
            ∀ e3 ∈ rest, tc ∉ e3.2 := fun e2 he2 tc htc e3 he3 =>
          hdisj e2 (List.mem_cons_of_mem _ he2) tc htc e3 (List.mem_cons_of_mem _ he3)
        have huw2 : ∀ e1 ∈ rest, ∀ e2 ∈ rest, ∀ q, q ∈ e1.2 → q ∈ e2.2 →
            e1.1 = e2.1 := fun e1 he1 e2 he2 q hq1 hq2 =>
          huw e1 (List.mem_cons_of_mem _ he1) e2 (List.mem_cons_of_mem _ he2) q hq1 hq2
        by_cases hrest : ∃ e2 ∈ rest, bc ∈ e2.2
        · obtain ⟨e2, he2, hbc2⟩ := hrest
          obtain ⟨tc, htc, hval⟩ :=
            ih h hdisj2 huw2 e2.1 e2.2 bc (by rwa [Prod.mk.eta]) hbc2
          have hkey : e2.1 = id :=
            huw e2 (List.mem_cons_of_mem _ he2) (id, v) hmem bc hbc2 hbc
          rw [hkey] at htc
          refine ⟨tc, htc, ?_⟩
          rw [hval]
          have hnotin : tc ∉ v2 := by
            have := hdisj (id, v) hmem tc (by rw [← hkey] at htc; rwa [hkey] at htc)
              (id2, v2) (List.mem_cons_self _ _)
            exact this
          refine fillList_get_not_mem h2 ?_
          intro b hb hco
          apply hnotin
          have hbeq : tc = b := by
            cases tc
            cases b
            simp only [Cell.mk.injEq]
            exact ⟨hco.1, hco.2⟩
          rw [hbeq]
          exact hb
        · have hhead : (id, v) = (id2, v2) := by
            rcases List.mem_cons.mp hmem with h3 | h3
            · exact h3
            · exact absurd ⟨(id, v), h3, hbc⟩ hrest
          injection hhead with heq1 heq2
          subst heq1
          subst heq2
          refine ⟨tc2, h1, ?_⟩
          have hframe : get2? tile' bc.row bc.col = get2? t1 bc.row bc.col := by
            refine fillBorder_get_not_mem h ?_
            intro e2 he2 b hb hco
            apply hrest
            refine ⟨e2, he2, ?_⟩
            have hbeq : bc = b := by
              cases bc
              cases b
              simp only [Cell.mk.injEq]
              exact ⟨hco.1, hco.2⟩
            rw [hbeq]
            exact hb
          rw [hframe]
          exact fillList_get_mem h2 hbc

/-! ## Transition lemmas -/

theorem evolveCell_spec {tile : BGrid} {r c : Int} {cur : Bool}
    (hg : get2? tile r c = some cur) :
    evolveCell tile r c = some (specLifeRule cur (countNeighbors tile r c)) := by
  rw [evolveCell, hg]
  cases cur with
  | true =>
    simp only [specLifeRule, alive, dead, if_true, eq_self_iff_true]
    by_cases h1 : countNeighbors tile r c < 2
    · rw [if_pos h1]
      have hno : ¬(countNeighbors tile r c = 2 ∨ countNeighbors tile r c = 3) := by omega
      simp [hno]
    · rw [if_neg h1]
      by_cases h2 : countNeighbors tile r c > 3
      · rw [if_pos h2]
        have hno : ¬(countNeighbors tile r c = 2 ∨ countNeighbors tile r c = 3) := by
          omega
        simp [hno]
      · rw [if_neg h2]
        have hyes : countNeighbors tile r c = 2 ∨ countNeighbors tile r c = 3 := by
          omega
        simp [hyes]
  | false =>
    show (if (false : Bool) = alive then
        if countNeighbors tile r c < 2 then some dead
        else if countNeighbors tile r c > 3 then some dead
        else some alive
      else if countNeighbors tile r c = 3 then some alive else some dead) =
      some (specLifeRule false (countNeighbors tile r c))
    rw [if_neg (by decide : ¬((false : Bool) = alive))]
    simp only [specLifeRule]
    rw [if_neg (by decide : ¬(false = true))]
    by_cases h3 : countNeighbors tile r c = 3
    · rw [if_pos h3]
      simp [alive, h3]
    · rw [if_neg h3]
      simp [dead, h3]

theorem evolveCell_isSome_iff {tile : BGrid} {r c : Int} :
    (∃ v, evolveCell tile r c = some v) ↔ (get2? tile r c).isSome := by
  constructor
  · rintro ⟨v, hv⟩
    rw [evolveCell] at hv
    cases hg : get2? tile r c with
    | none => simp only [hg] at hv; cases hv
    | some cur => simp
  · intro h
    obtain ⟨cur, hg⟩ := Option.isSome_iff_exists.mp h
    exact ⟨_, evolveCell_spec hg⟩

theorem evolveCells_dims {tile : BGrid} {cs : List Cell} {nt nt' : BGrid}
    (h : evolveCells tile cs nt = some nt') : dims nt' = dims nt := by
  induction cs generalizing nt with
  | nil => cases h; rfl
  | cons c0 rest ih =>
    rw [evolveCells] at h
    cases h1 : evolveCell tile c0.row c0.col with
    | none => simp only [h1] at h; cases h
    | some v =>
      simp only [h1] at h
      cases h2 : set2? nt c0.row c0.col v with
      | none => simp only [h2] at h; cases h
      | some nt1 =>
        simp only [h2] at h
        exact (ih h).trans (dims_set2? h2)

theorem evolveCells_get_not_mem {tile : BGrid} {cs : List Cell} {nt nt' : BGrid}
    {r c : Int} (h : evolveCells tile cs nt = some nt')
    (hq : ∀ cc ∈ cs, ¬(r = cc.row ∧ c = cc.col)) :
    get2? nt' r c = get2? nt r c := by
  induction cs generalizing nt with
  | nil => cases h; rfl
  | cons c0 rest ih =>
    rw [evolveCells] at h
    cases h1 : evolveCell tile c0.row c0.col with
    | none => simp only [h1] at h; cases h
    | some v =>
      simp only [h1] at h
      cases h2 : set2? nt c0.row c0.col v with
      | none => simp only [h2] at h; cases h
      | some nt1 =>
        simp only [h2] at h
        rw [ih h (fun c2 hc2 => hq c2 (List.mem_cons_of_mem _ hc2))]
        exact get2?_set2?_ne h2 (hq c0 (List.mem_cons_self _ _))

theorem evolveCells_isSome_iff {tile : BGrid} {cs : List Cell} {nt : BGrid} :
    (∃ nt', evolveCells tile cs nt = some nt') ↔
      ∀ cc ∈ cs, (get2? tile cc.row cc.col).isSome ∧
        (get2? nt cc.row cc.col).isSome := by
  induction cs generalizing nt with
  | nil => simp [evolveCells]
  | cons c0 rest ih =>
    rw [evolveCells]
    constructor
    · rintro ⟨nt', h⟩
      cases h1 : evolveCell tile c0.row c0.col with
      | none => simp only [h1] at h; cases h
      | some v =>
        simp only [h1] at h
        cases h2 : set2? nt c0.row c0.col v with
        | none => simp only [h2] at h; cases h
        | some nt1 =>
          simp only [h2] at h
          have hdim := dims_set2? h2
          intro cc hcc
          rcases List.mem_cons.mp hcc with rfl | hcc2
          · refine ⟨evolveCell_isSome_iff.mp ⟨v, h1⟩, ?_⟩
            rw [← set2?_isSome nt cc.row cc.col v, h2]
            rfl
          · obtain ⟨ha, hb⟩ := ih.mp ⟨nt', h⟩ cc hcc2
            refine ⟨ha, ?_⟩
            rw [← get2?_isSome_congr hdim]
            exact hb
    · intro hall
      obtain ⟨h1a, h1b⟩ := hall c0 (List.mem_cons_self _ _)
      obtain ⟨v, h1⟩ := evolveCell_isSome_iff.mpr h1a
      have h2s : (set2? nt c0.row c0.col v).isSome := by
        rw [set2?_isSome]
        exact h1b
      obtain ⟨nt1, h2⟩ := Option.isSome_iff_exists.mp h2s
      have hdim := dims_set2? h2
      have hex : ∃ nt', evolveCells tile rest nt1 = some nt' := by
        apply ih.mpr
        intro cc hcc
        obtain ⟨ha, hb⟩ := hall cc (List.mem_cons_of_mem _ hcc)
        refine ⟨ha, ?_⟩
        rw [get2?_isSome_congr hdim]
        exact hb
      obtain ⟨nt', h3⟩ := hex
      refine ⟨nt', ?_⟩
      simp only [h1, h2]
      exact h3

theorem evolveCells_value {tile : BGrid} {cs : List Cell} {nt nt' : BGrid}
    (h : evolveCells tile cs nt = some nt') (hnd : cs.Nodup)
    {cc : Cell} (hmem : cc ∈ cs) {v : Bool}
    (hv : evolveCell tile cc.row cc.col = some v) :
    get2? nt' cc.row cc.col = some v := by
  induction cs generalizing nt with
  | nil => cases hmem
  | cons c0 rest ih =>
    obtain ⟨hnotin, hnd2⟩ := List.nodup_cons.mp hnd
    rw [evolveCells] at h
    cases h1 : evolveCell tile c0.row c0.col with
    | none => simp only [h1] at h; cases h
    | some v0 =>
      simp only [h1] at h
      cases h2 : set2? nt c0.row c0.col v0 with
      | none => simp only [h2] at h; cases h
      | some nt1 =>
        simp only [h2] at h
        rcases List.mem_cons.mp hmem with rfl | hmem2
        · have hfr : get2? nt' cc.row cc.col = get2? nt1 cc.row cc.col := by
            refine evolveCells_get_not_mem h ?_
            intro c2 hc2 hco
            apply hnotin
            have hcc2 : cc = c2 := by
              cases cc
              cases c2
              simp only [Cell.mk.injEq]
              exact ⟨hco.1, hco.2⟩
            rw [hcc2]
            exact hc2
          rw [hfr, get2?_set2?_self h2]
          rw [h1] at hv
          cases hv
          rfl
        · exact ih h hnd2 hmem2

/-! ## Neighbor count equivalence -/

theorem cols0_rect {g : List (List α)} {rows cols : Nat} (hrect : Rect g rows cols)
    (hne : g ≠ []) : cols0 g = cols := by
  cases g with
  | nil => exact absurd rfl hne
  | cons hd tl =>
    have hh : hd.length = cols := hrect.2 hd (List.mem_cons_self _ _)
    simpa [cols0] using hh

theorem get2?_oob_none {g : List (List α)} {rows cols : Nat} (hrect : Rect g rows cols)
    {ri cj : Int}
    (h : ri < 0 ∨ (g.length : Int) ≤ ri ∨ cj < 0 ∨ (cols0 g : Int) ≤ cj) :
    get2? g ri cj = none := by
  unfold get2?
  by_cases hb : 0 ≤ ri ∧ 0 ≤ cj
  · rw [if_pos hb]
    cases hrow : g[ri.toNat]? with
    | none => rfl
    | some row =>
      have hlt : ri.toNat < g.length := by
        by_contra hcon
        rw [List.getElem?_eq_none (Nat.le_of_not_lt hcon)] at hrow
        cases hrow
      have hcj : (cols0 g : Int) ≤ cj := by omega
      simp only [Option.some_bind]
      apply List.getElem?_eq_none
      have hrowlen : row.length = cols := hrect.2 row (List.getElem?_mem hrow)
      have hcols0 : cols0 g = cols := by
        cases g with
        | nil => simp at hlt
        | cons hd tl =>
          have hh : hd.length = cols := hrect.2 hd (List.mem_cons_self _ _)
          simpa [cols0] using hh
      omega
  · rw [if_neg hb]

theorem nbTerm_eq {g : BGrid} {rows cols : Nat} (hrect : Rect g rows cols)
    (ri cj : Int) :
    (decide (¬(ri < 0 ∨ (g.length : Int) ≤ ri ∨ cj < 0 ∨ (cols0 g : Int) ≤ cj)) &&
      (maskAt g ri cj == alive)) = (get2? g ri cj).getD false := by
  by_cases hin : ri < 0 ∨ (g.length : Int) ≤ ri ∨ cj < 0 ∨ (cols0 g : Int) ≤ cj
  · rw [decide_eq_false (not_not_intro hin), Bool.false_and,
      get2?_oob_none hrect hin]
    rfl
  · rw [decide_eq_true hin, Bool.true_and, maskAt]
    cases (get2? g ri cj).getD false <;> rfl

theorem get2?_isSome_of_inRange {g : List (List α)} {rows cols : Nat}
    (hrect : Rect g rows cols) {r c : Int}
    (hin : 0 ≤ r ∧ r < (rows : Int) ∧ 0 ≤ c ∧ c < (cols : Int)) :
    (get2? g r c).isSome := by
  rw [get2?_isSome_iff]
  refine ⟨hin.1, hin.2.2.1, ?_⟩
  have hlen : g.length = rows := hrect.1
  have hlt : r.toNat < g.length := by omega
  cases hrow : g[r.toNat]? with
  | none =>
    rw [List.getElem?_eq_none_iff] at hrow
    omega
  | some row =>
    have hrowlen : row.length = cols := hrect.2 row (List.getElem?_mem hrow)
    refine ⟨row, rfl, ?_⟩
    rw [hrowlen]
    omega

theorem countNeighbors_eq_spec {g : BGrid} {rows cols : Nat} (hrect : Rect g rows cols)
    {r c : Int} (hin : 0 ≤ r ∧ r < (rows : Int) ∧ 0 ≤ c ∧ c < (cols : Int)) :
    countNeighbors g r c = specLiveNeighbors g (Cell.mk r c) := by
  have hlen : g.length = rows := hrect.1
  have hgne : g ≠ [] := by
    intro hnil
    rw [hnil] at hlen
    simp at hlen
    omega
  have hc0 : cols0 g = cols := cols0_rect hrect hgne
  rw [countNeighbors, if_neg (by rw [hlen, hc0]; omega)]
  rw [specLiveNeighbors]
  simp only [mooreOffsets, List.map_cons, List.map_nil, List.sum_cons, List.sum_nil,
    ← List.countP_eq_length_filter, List.countP_cons, List.countP_nil]
  simp only [sub_eq_add_neg, add_zero]
  have e1 : decide (¬(r + -1 = r ∧ c + -1 = c)) = true := decide_eq_true (by omega)
  have e2 : decide (¬(r + -1 = r)) = true := decide_eq_true (by omega)
  have e3 : decide (¬(r + -1 = r ∧ c + 1 = c)) = true := decide_eq_true (by omega)
  have e4 : decide (¬(c + -1 = c)) = true := decide_eq_true (by omega)
  have e5 : decide (¬(c + 1 = c)) = true := decide_eq_true (by omega)
  have e6 : decide (¬(r + 1 = r ∧ c + -1 = c)) = true := decide_eq_true (by omega)
  have e7 : decide (¬(r + 1 = r)) = true := decide_eq_true (by omega)
  have e8 : decide (¬(r + 1 = r ∧ c + 1 = c)) = true := decide_eq_true (by omega)
  simp only [and_true, true_and, and_self, not_true, decide_False, e1, e2, e3, e4, e5,
    e6, e7, e8, Bool.true_and, Bool.false_and, Bool.false_eq_true, if_false]
  rw [nbTerm_eq hrect (r + -1) (c + -1), nbTerm_eq hrect (r + -1) c,
    nbTerm_eq hrect (r + -1) (c + 1), nbTerm_eq hrect r (c + -1),
    nbTerm_eq hrect r (c + 1), nbTerm_eq hrect (r + 1) (c + -1),
    nbTerm_eq hrect (r + 1) c, nbTerm_eq hrect (r + 1) (c + 1)]
  ring

/-! ## Entry invariants and assembly helpers -/

theorem rect_congr {g h : List (List α)} {rows cols : Nat} (hd : dims g = dims h)
    (hr : Rect h rows cols) : Rect g rows cols := by
  constructor
  · have hl := congrArg List.length hd
    simp only [dims, List.length_map] at hl
    rw [hl]
    exact hr.1
  · intro row hrow
    have hmem : row.length ∈ dims g := List.mem_map_of_mem List.length hrow
    rw [hd] at hmem
    obtain ⟨row2, hrow2, hlen2⟩ := List.mem_map.mp hmem
    rw [← hlen2]
    exact hr.2 row2 hrow2

theorem borderAppend_entry_inv {B : List (Nat × List Cell)} {id : Nat} {c : Cell}
    {K : Nat → Prop} {P : Cell → Prop}
    (hB : ∀ kv ∈ B, K kv.1 ∧ ∀ bc ∈ kv.2, P bc) (hk : K id) (hc : P c) :
    ∀ kv ∈ borderAppend B id c, K kv.1 ∧ ∀ bc ∈ kv.2, P bc := by
  induction B with
  | nil =>
    intro kv hkv
    rw [borderAppend] at hkv
    rcases List.mem_singleton.mp hkv with rfl
    exact ⟨hk, fun bc hbc => by rw [List.mem_singleton.mp hbc]; exact hc⟩
  | cons kv0 rest ih =>
    obtain ⟨k0, v0⟩ := kv0
    intro kv hkv
    rw [borderAppend] at hkv
    by_cases h0 : k0 = id
    · rw [if_pos h0] at hkv
      rcases List.mem_cons.mp hkv with rfl | hmem
      · obtain ⟨hK, hP⟩ := hB (k0, v0) (List.mem_cons_self _ _)
        refine ⟨hK, fun bc hbc => ?_⟩
        rcases List.mem_append.mp hbc with hb | hb
        · exact hP bc hb
        · rw [List.mem_singleton.mp hb]
          exact hc
      · exact hB kv (List.mem_cons_of_mem _ hmem)
    · rw [if_neg h0] at hkv
      rcases List.mem_cons.mp hkv with rfl | hmem
      · exact hB _ (List.mem_cons_self _ _)
      · exact ih (fun kv2 hkv2 => hB kv2 (List.mem_cons_of_mem _ hkv2)) kv hmem

theorem tessRule_entry_inv {mask : BGrid} {rows cols : Nat} {rule : Offset}
    {l : List (Nat × Cell)} {B B' : List (Nat × List Cell)} {K : Nat → Prop}
    (h : tessRule mask rows cols rule l B = .ok B')
    (hl : ∀ p ∈ l, K p.1)
    (hB : ∀ kv ∈ B, K kv.1 ∧ ∀ bc ∈ kv.2, inRange rows cols bc.row bc.col = true ∧
      maskAt mask bc.row bc.col = dead ∧ 0 < countNeighbors mask bc.row bc.col) :
    ∀ kv ∈ B', K kv.1 ∧ ∀ bc ∈ kv.2, inRange rows cols bc.row bc.col = true ∧
      maskAt mask bc.row bc.col = dead ∧ 0 < countNeighbors mask bc.row bc.col := by
  induction l generalizing B with
  | nil =>
    cases h
    exact hB
  | cons idc rest ih =>
    obtain ⟨id, c⟩ := idc
    rw [tessRule] at h
    by_cases hin : inRange rows cols (c.row + rule.row) (c.col + rule.col) = true
    · rw [if_pos hin] at h
      by_cases hdead : maskAt mask (c.row + rule.row) (c.col + rule.col) = dead
      · rw [if_pos hdead] at h
        by_cases hcnt : countNeighbors mask (c.row + rule.row) (c.col + rule.col) > 0
        · rw [if_pos hcnt] at h
          exact ih h (fun p hp => hl p (List.mem_cons_of_mem _ hp))
            (borderAppend_entry_inv hB (hl (id, c) (List.mem_cons_self _ _))
              ⟨hin, hdead, hcnt⟩)
        · rw [if_neg hcnt] at h
          exact ih h (fun p hp => hl p (List.mem_cons_of_mem _ hp)) hB
      · rw [if_neg hdead] at h
        cases h
    · rw [if_neg hin] at h
      exact ih h (fun p hp => hl p (List.mem_cons_of_mem _ hp)) hB

theorem tessAll_entry_inv {mask : BGrid} {rows cols : Nat} {l : List (Nat × Cell)}
    {rules : List Offset} {B B' : List (Nat × List Cell)} {K : Nat → Prop}
    (h : tessAll mask rows cols l rules B = .ok B')
    (hl : ∀ p ∈ l, K p.1)
    (hB : ∀ kv ∈ B, K kv.1 ∧ ∀ bc ∈ kv.2, inRange rows cols bc.row bc.col = true ∧
      maskAt mask bc.row bc.col = dead ∧ 0 < countNeighbors mask bc.row bc.col) :
    ∀ kv ∈ B', K kv.1 ∧ ∀ bc ∈ kv.2, inRange rows cols bc.row bc.col = true ∧
      maskAt mask bc.row bc.col = dead ∧ 0 < countNeighbors mask bc.row bc.col := by
  induction rules generalizing B with
  | nil =>
    cases h
    exact hB
  | cons rule rs ih =>
    rw [tessAll] at h
    cases htr : tessRule mask rows cols rule l B with
    | error e =>
      simp only [htr] at h
      cases h
    | ok B1 =>
      simp only [htr] at h
      exact ih h (tessRule_entry_inv htr hl hB)

theorem New_entry_inv {mask : BGrid} {rules : List Offset} {p : Pattern}
    (h : New mask rules = .ok p) :
    ∀ kv ∈ p.Border, kv.1 < p.Cells.length ∧
      ∀ bc ∈ kv.2, inRange mask.length (cols0 mask) bc.row bc.col = true ∧
        maskAt mask bc.row bc.col = dead ∧ 0 < countNeighbors mask bc.row bc.col := by
  obtain ⟨h1, h2, h3, hcells, htess⟩ := New_ok_inv h
  have hres := tessAll_entry_inv (K := fun id => id < p.Cells.length) htess ?_ ?_
  · exact hres
  · intro q hq
    have hg := List.mem_enum_iff_getElem?.mp (by exact (Prod.mk.eta (p := q)) ▸ hq)
    rw [← hcells] at hg
    by_contra hc
    rw [List.getElem?_eq_none (Nat.le_of_not_lt hc)] at hg
    cases hg
  · intro kv hkv
    cases hkv

theorem trueCoords_inRange {mask : BGrid} {rows cols : Nat} (hrect : Rect mask rows cols)
    {tc : Cell} (h : tc ∈ trueCoords mask) :
    inRange rows cols tc.row tc.col = true ∧ get2? mask tc.row tc.col = some true := by
  obtain ⟨r, k, hrow, hcol, hget⟩ := mem_trueCoords_iff.mp h
  have hget2 : get2? mask tc.row tc.col = some true := by
    rw [hrow, hcol, get2?_natCast]
    exact hget
  refine ⟨?_, hget2⟩
  rw [get2N] at hget
  cases hrowm : mask[r]? with
  | none =>
    rw [hrowm] at hget
    cases hget
  | some row =>
    rw [hrowm, Option.some_bind] at hget
    have hr2 : r < mask.length := by
      by_contra hc
      rw [List.getElem?_eq_none (Nat.le_of_not_lt hc)] at hrowm
      cases hrowm
    have hk2 : k < row.length := by
      by_contra hc
      rw [List.getElem?_eq_none (Nat.le_of_not_lt hc)] at hget
      cases hget
    have hrows : mask.length = rows := hrect.1
    have hcols : row.length = cols := hrect.2 row (List.getElem?_mem hrowm)
    rw [inRange]
    apply decide_eq_true
    rw [hrow, hcol]
    constructor
    · exact Int.ofNat_nonneg r
    constructor
    · exact_mod_cast by omega
    constructor
    · exact Int.ofNat_nonneg k
    · exact_mod_cast by omega

theorem EvolveOrd_inv {t : Pattern} {entries : List (Nat × List Cell)}
    {tile newTile t' nt' : BGrid}
    (h : EvolveOrd t entries tile newTile = some (t', nt')) :
    fillBorder t.Cells entries tile = some t' ∧
    evolveCells t' (t.Cells.drop 1) newTile = some nt' := by
  rw [EvolveOrd] at h
  cases h1 : fillBorder t.Cells entries tile with
  | none =>
    simp only [h1] at h
    cases h
  | some t2 =>
    simp only [h1] at h
    cases h2 : evolveCells t2 (t.Cells.drop 1) newTile with
    | none =>
      simp only [h2] at h
      cases h
    | some nt2 =>
      simp only [h2] at h
      cases h
      exact ⟨rfl, h2⟩

theorem EvolveOrd_mk {t : Pattern} {entries : List (Nat × List Cell)}
    {tile newTile t' nt' : BGrid}
    (h1 : fillBorder t.Cells entries tile = some t')
    (h2 : evolveCells t' (t.Cells.drop 1) newTile = some nt') :
    EvolveOrd t entries tile newTile = some (t', nt') := by
  rw [EvolveOrd]
  simp only [h1, h2]

theorem borderCand_eq_some_iff {mask : BGrid} {rows cols : Nat} {tc : Cell}
    {r : Offset} {c : Cell} :
    borderCand mask rows cols tc r = some c ↔
      c = Cell.mk (tc.row + r.row) (tc.col + r.col) ∧
      inRange rows cols (tc.row + r.row) (tc.col + r.col) = true ∧
      maskAt mask (tc.row + r.row) (tc.col + r.col) = dead ∧
      0 < countNeighbors mask (tc.row + r.row) (tc.col + r.col) := by
  rw [borderCand]
  split_ifs with hcond
  · simp only [Option.some.injEq]
    simp only [Bool.and_eq_true, beq_iff_eq, decide_eq_true_eq] at hcond
    constructor
    · intro he
      exact ⟨he.symm, hcond.1.1, hcond.1.2, hcond.2⟩
    · rintro ⟨he, _⟩
      exact he.symm
  · constructor
    · intro he
      cases he
    · rintro ⟨he, h1, h2, h3⟩
      exfalso
      apply hcond
      simp only [Bool.and_eq_true, beq_iff_eq, decide_eq_true_eq]
      exact ⟨⟨h1, h2⟩, h3⟩

theorem mask_ne_nil_of_inRange {rows cols : Nat} {mask : BGrid}
    (hrect : Rect mask rows cols) {ri ci : Int}
    (hin : inRange rows cols ri ci = true) : mask ≠ [] := by
  intro hnil
  have hd := of_decide_eq_true hin
  have hlen : mask.length = rows := hrect.1
  rw [hnil] at hlen
  simp only [List.length_nil] at hlen
  omega

/-- C1 (counterexample): on the 1×2 mask with single live cell (0,1) and the
single rule (0,1), New reports an overlap error for identifier 0 — the
sentinel, not an in-tile cell — while no translation of an in-tile identifier
1..N lands on a live mask position, refuting the claimed equivalence. -/
theorem C1_counterexample :
    New cexMask1 cexRules1 = Except.error ⟨⟨0, 1⟩, ⟨0, 1⟩, 0⟩ ∧
    inTileOverlap cexMask1 cexRules1 = false := by
  constructor
  · rfl
  · decide

/-- C1 (amended): New(mask, rules) returns an error if and only if some
translation rule, added to the coordinate of some Cell List entry — the
sentinel entry (identifier 0 at coordinate (0,0)) included, not only the
in-tile identifiers 1..N — yields an in-bounds coordinate at which the mask is
true; the error reports the offending rule, that translated coordinate, and
that entry's identifier, and no Pattern is produced (the result is either an
error or a pattern, never both). -/
theorem C1_overlap_error {mask : BGrid} {rules : List Offset} :
    ((∃ e, New mask rules = .error e) ↔
      ∃ r ∈ rules, ∃ (id : Nat) (c : Cell),
        (Cell.mk 0 0 :: trueCoords mask)[id]? = some c ∧
        overlapAt mask mask.length (cols0 mask) c r = true) ∧
    (∀ e, New mask rules = .error e →
      e.rule ∈ rules ∧ ∃ c, (Cell.mk 0 0 :: trueCoords mask)[e.id]? = some c ∧
        e.at_ = Cell.mk (c.row + e.rule.row) (c.col + e.rule.col) ∧
        maskAt mask e.at_.row e.at_.col = alive) := by
  constructor
  · exact New_error_iff
  · intro e he
    obtain ⟨hr, c, hc, hat, hov⟩ := New_error_shape he
    refine ⟨hr, c, hc, hat, ?_⟩
    rw [overlapAt] at hov
    simp only [Bool.and_eq_true, beq_iff_eq] at hov
    rw [hat]
    exact hov.2

/-- Witness for the amended C1 at a concrete input: the sentinel overlap makes
New fail. -/
theorem C1_overlap_error_witness : ∃ e, New cexMask1 cexRules1 = .error e :=
  (@C1_overlap_error cexMask1 cexRules1).1.mpr
    ⟨⟨0, 1⟩, by decide, 0, ⟨0, 0⟩, by decide, by decide⟩

/-- C3: for every mask and rule list on which New succeeds (mask rectangular),
and every identifier 1..N with tile coordinate tc, a coordinate is in the
Border collection of that identifier iff it is tc translated by some rule,
in bounds, false in the original mask, and has a live Moore neighbor in the
original mask. -/
theorem C3_border_characterization {mask : BGrid} {rules : List Offset} {p : Pattern}
    {rows cols : Nat} (h : New mask rules = .ok p) (hrect : Rect mask rows cols)
    {id : Nat} (hid : 1 ≤ id) {tc : Cell} (htc : p.Cells[id]? = some tc) (c : Cell) :
    c ∈ borderGet p.Border id ↔
      ∃ r ∈ rules, c = Cell.mk (tc.row + r.row) (tc.col + r.col) ∧
        inRange rows cols c.row c.col = true ∧
        get2? mask c.row c.col = some false ∧
        0 < specLiveNeighbors mask c := by
  obtain ⟨hrows, hcols, hmask, hcells, htess⟩ := New_ok_inv h
  have hbg := New_ok_borderGet h id
  rw [← hcells] at hbg
  simp only [htc] at hbg
  rw [hbg, List.mem_filterMap]
  have hlen : mask.length = rows := hrect.1
  constructor
  · rintro ⟨r, hr, hcand⟩
    obtain ⟨hc, hin, hdead, hcnt⟩ := borderCand_eq_some_iff.mp hcand
    subst hc
    have hd := of_decide_eq_true hin
    have hpos : 0 < mask.length := by omega
    have hne : mask ≠ [] := by
      intro hnil
      rw [hnil] at hpos
      simp at hpos
    have hc0 : cols0 mask = cols := cols0_rect hrect hne
    rw [hlen, hc0] at hd
    have hin2 : inRange rows cols (tc.row + r.row) (tc.col + r.col) = true :=
      decide_eq_true hd
    have hsome := get2?_isSome_of_inRange hrect hd
    obtain ⟨b, hb⟩ := Option.isSome_iff_exists.mp hsome
    have hbf : b = false := by
      have hmd := hdead
      rw [maskAt, hb] at hmd
      simpa [dead] using hmd
    rw [hbf] at hb
    rw [countNeighbors_eq_spec hrect hd] at hcnt
    exact ⟨r, hr, rfl, hin2, hb, hcnt⟩
  · rintro ⟨r, hr, hc, hin, hfalse, hcnt⟩
    subst hc
    have hin2 : inRange rows cols (tc.row + r.row) (tc.col + r.col) = true := hin
    have hfalse2 : get2? mask (tc.row + r.row) (tc.col + r.col) = some false := hfalse
    have hcnt2 : 0 < specLiveNeighbors mask
        (Cell.mk (tc.row + r.row) (tc.col + r.col)) := hcnt
    have hd := of_decide_eq_true hin2
    have hpos : 0 < rows := by omega
    have hne : mask ≠ [] := by
      intro hnil
      rw [hnil] at hlen
      simp only [List.length_nil] at hlen
      omega
    have hc0 : cols0 mask = cols := cols0_rect hrect hne
    refine ⟨r, hr, borderCand_eq_some_iff.mpr ⟨rfl, ?_, ?_, ?_⟩⟩
    · apply decide_eq_true
      rw [hlen, hc0]
      exact hd
    · rw [maskAt, hfalse2]
      rfl
    · rw [countNeighbors_eq_spec hrect hd]
      exact hcnt2

/-- Witness for C3 at the 3×3 center-cell mask with the downward rule. -/
theorem C3_border_characterization_witness :
    (Cell.mk 2 1 ∈ borderGet witPat5.Border 1 ↔
      ∃ r ∈ witRules5, Cell.mk 2 1 = Cell.mk ((1 : Int) + r.row) ((1 : Int) + r.col) ∧
        inRange 3 3 (2 : Int) (1 : Int) = true ∧
        get2? cexMask5 (2 : Int) (1 : Int) = some false ∧
        0 < specLiveNeighbors cexMask5 (Cell.mk 2 1)) ∧
    Cell.mk 2 1 ∈ borderGet witPat5.Border 1 := by
  constructor
  · exact @C3_border_characterization cexMask5 witRules5 witPat5 3 3 (by rfl)
      (by decide) 1 (by decide) (Cell.mk 1 1) (by decide) (Cell.mk 2 1)
  · decide

/-- C9: New succeeds on a rule list iff it succeeds on any permutation of it,
and on success the patterns agree on dimensions, id grid and Cell List, while
each identifier's Border collection is a permutation (same multiset, hence
same set) of the other's; only the reported error may differ on failure. -/
theorem C9_rule_permutation {mask : BGrid} {rules1 rules2 : List Offset}
    (hperm : rules1.Perm rules2) :
    ((∃ p, New mask rules1 = .ok p) ↔ (∃ p, New mask rules2 = .ok p)) ∧
    (∀ p1 p2, New mask rules1 = .ok p1 → New mask rules2 = .ok p2 →
      p1.rows = p2.rows ∧ p1.cols = p2.cols ∧ p1.mask = p2.mask ∧
      p1.Cells = p2.Cells ∧
      ∀ id, (borderGet p1.Border id).Perm (borderGet p2.Border id)) := by
  have herr : (∃ e, New mask rules1 = .error e) ↔
      (∃ e, New mask rules2 = .error e) := by
    rw [New_error_iff, New_error_iff]
    constructor
    · rintro ⟨r, hr, rest⟩
      exact ⟨r, hperm.mem_iff.mp hr, rest⟩
    · rintro ⟨r, hr, rest⟩
      exact ⟨r, hperm.mem_iff.mpr hr, rest⟩
  constructor
  · constructor
    · rintro ⟨p1, hp1⟩
      cases h2 : New mask rules2 with
      | ok p2 => exact ⟨p2, rfl⟩
      | error e =>
        exfalso
        obtain ⟨e1, he1⟩ := herr.mpr ⟨e, h2⟩
        rw [hp1] at he1
        cases he1
    · rintro ⟨p2, hp2⟩
      cases h1 : New mask rules1 with
      | ok p1 => exact ⟨p1, rfl⟩
      | error e =>
        exfalso
        obtain ⟨e2, he2⟩ := herr.mp ⟨e, h1⟩
        rw [hp2] at he2
        cases he2
  · intro p1 p2 h1 h2
    obtain ⟨hr1, hc1, hm1, hcl1, hx1⟩ := New_ok_inv h1
    obtain ⟨hr2, hc2, hm2, hcl2, hx2⟩ := New_ok_inv h2
    refine ⟨hr1.trans hr2.symm, hc1.trans hc2.symm, hm1.trans hm2.symm,
      hcl1.trans hcl2.symm, ?_⟩
    intro id
    have hb1 := New_ok_borderGet h1 id
    have hb2 := New_ok_borderGet h2 id
    rw [hb1, hb2]
    cases hcell : (Cell.mk 0 0 :: trueCoords mask)[id]? with
    | none => exact List.Perm.refl _
    | some c => exact hperm.filterMap _

/-- Witness for C9: success transfers across a reversal of the rule list. -/
theorem C9_rule_permutation_witness :
    ∃ p, New cexMask5 cexRules5.reverse = .ok p :=
  (@C9_rule_permutation cexMask5 cexRules5 cexRules5.reverse
    (List.reverse_perm cexRules5).symm).1.mp ⟨cexPat5, by rfl⟩

/-- C10 (counterexample): on the 1×4 mask with rules [(0,2),(0,1)], the
second rule's offset (0,1) is in bounds and the mask is true there, yet New
reports the overlap of rule (0,2) at identifier 1 — not an overlap error
reporting identifier 0 — and no Border entry is recorded at all. -/
theorem C10_counterexample :
    New cexMask10 cexRules10 = Except.error ⟨⟨0, 2⟩, ⟨0, 3⟩, 1⟩ ∧
    (⟨0, 1⟩ : Offset) ∈ cexRules10 ∧
    inRange cexMask10.length (cols0 cexMask10) 0 1 = true ∧
    maskAt cexMask10 0 1 = alive := by
  refine ⟨rfl, by decide, by decide, by decide⟩

/-- C10 (amended): New's tessellation loop ranges over the Cell List from
index 0, so the sentinel entry (identifier 0, coordinate (0,0)) is translated
by every rule: (i) on success Cells[0] is the sentinel (0,0); (ii) whenever a
rule's offset, taken as a coordinate, is in bounds and the mask is true
there, New returns an overlap error (though it may report an earlier
rule/identifier pair, not necessarily identifier 0); (iii) whenever New
succeeds, every rule whose in-bounds offset has a live Moore neighbor in the
mask is recorded under Border Map key 0; (iv) a later Evolve — when no border
coordinate is shared between Border entries and no entry's tile coordinate is
itself a border coordinate — copies the value of grid position (0,0) into
each coordinate recorded under key 0. -/
theorem C10_sentinel_translated {mask : BGrid} {rules : List Offset} :
    (∀ p, New mask rules = .ok p → p.Cells[0]? = some (Cell.mk 0 0)) ∧
    (∀ r ∈ rules, inRange mask.length (cols0 mask) r.row r.col = true →
      maskAt mask r.row r.col = alive → ∃ e, New mask rules = .error e) ∧
    (∀ p, New mask rules = .ok p → ∀ r ∈ rules,
      inRange mask.length (cols0 mask) r.row r.col = true →
      0 < countNeighbors mask r.row r.col →
      Cell.mk r.row r.col ∈ borderGet p.Border 0) ∧
    (∀ p tile newTile t' nt', New mask rules = .ok p →
      Evolve p tile newTile = some (t', nt') →
      (∀ e ∈ p.Border, ∀ tc, p.Cells[e.1]? = some tc →
        ∀ e2 ∈ p.Border, tc ∉ e2.2) →
      (∀ e1 ∈ p.Border, ∀ e2 ∈ p.Border, ∀ q, q ∈ e1.2 → q ∈ e2.2 →
        e1.1 = e2.1) →
      ∀ v bc, (0, v) ∈ p.Border → bc ∈ v →
        get2? t' bc.row bc.col = get2? tile 0 0) := by
  have hover : ∀ r : Offset, inRange mask.length (cols0 mask) r.row r.col = true →
      maskAt mask r.row r.col = alive →
      overlapAt mask mask.length (cols0 mask) (Cell.mk 0 0) r = true := by
    intro r hin halive
    rw [overlapAt]
    simp only [zero_add]
    rw [hin, halive]
    rfl
  refine ⟨?_, ?_, ?_, ?_⟩
  · intro p hp
    obtain ⟨h1, h2, h3, hcells, h5⟩ := New_ok_inv hp
    rw [hcells]
    exact List.getElem?_cons_zero
  · intro r hr hin halive
    exact New_error_iff.mpr ⟨r, hr, 0, Cell.mk 0 0, List.getElem?_cons_zero,
      hover r hin halive⟩
  · intro p hp r hr hin hcnt
    have hbg := New_ok_borderGet hp 0
    have hdead : maskAt mask ((0 : Int) + r.row) ((0 : Int) + r.col) = dead := by
      simp only [zero_add]
      cases hma : maskAt mask r.row r.col with
      | false => rfl
      | true =>
        exfalso
        obtain ⟨e, he⟩ := New_error_iff.mpr ⟨r, hr, 0, Cell.mk 0 0,
          List.getElem?_cons_zero, hover r hin hma⟩
        rw [hp] at he
        cases he
    rw [hbg]
    simp only [List.getElem?_cons_zero]
    apply List.mem_filterMap.mpr
    refine ⟨r, hr, borderCand_eq_some_iff.mpr ⟨?_, ?_, hdead, ?_⟩⟩
    · simp
    · simp only [zero_add]
      exact hin
    · simp only [zero_add]
      exact hcnt
  · intro p tile newTile t' nt' hp he hdisj huw v bc hmem hbc
    obtain ⟨hfill, htrans⟩ := EvolveOrd_inv he
    obtain ⟨tc, htc, hval⟩ := fillBorder_values hfill hdisj huw 0 v bc hmem hbc
    obtain ⟨h1, h2, h3, hcells, h5⟩ := New_ok_inv hp
    rw [hcells] at htc
    simp only [List.getElem?_cons_zero, Option.some.injEq] at htc
    rw [hval, ← htc]

/-- Witness for the amended C10: the sentinel causes the construction error
on the 1×2 mask, and on the 3×3 pattern the rule offset (1,0) is recorded
under Border key 0. -/
theorem C10_sentinel_translated_witness :
    (∃ e, New cexMask1 cexRules1 = .error e) ∧
    Cell.mk 1 0 ∈ borderGet witPat5.Border 0 := by
  constructor
  · exact (@C10_sentinel_translated cexMask1 cexRules1).2.1 ⟨0, 1⟩ (by decide)
      (by decide) (by decide)
  · exact (@C10_sentinel_translated cexMask5 witRules5).2.2.1 witPat5 (by rfl)
      ⟨1, 0⟩ (by decide) (by decide) (by decide)

theorem inRange_convert {mask : BGrid} {rows cols : Nat} (hrect : Rect mask rows cols)
    {ri ci : Int} (hin : inRange mask.length (cols0 mask) ri ci = true) :
    inRange rows cols ri ci = true ∧ 0 < rows ∧ 0 < cols := by
  have hb := of_decide_eq_true hin
  have hlen := hrect.1
  have hpos : 0 < mask.length := by omega
  have hne : mask ≠ [] := by
    intro hnil
    rw [hnil] at hpos
    simp at hpos
  have hc0 := cols0_rect hrect hne
  rw [hlen, hc0] at hb
  refine ⟨decide_eq_true hb, by omega, by omega⟩

theorem border_coord_mask_false {mask : BGrid} {rows cols : Nat}
    (hrect : Rect mask rows cols) {bc : Cell}
    (hin : inRange mask.length (cols0 mask) bc.row bc.col = true)
    (hdead : maskAt mask bc.row bc.col = dead) :
    get2? mask bc.row bc.col = some false := by
  obtain ⟨hin2, hr, hc⟩ := inRange_convert hrect hin
  have hsome := get2?_isSome_of_inRange hrect (of_decide_eq_true hin2)
  obtain ⟨b, hb⟩ := Option.isSome_iff_exists.mp hsome
  have hbf : b = false := by
    rw [maskAt, hb] at hdead
    simpa [dead] using hdead
  rw [hbf] at hb
  exact hb

/-- C6: for a pattern produced by a successful New on a rectangular mask, and
current/next grids of the mask's dimensions, every grid access performed by
Evolve (border writes and reads into current, tile-cell reads including the
neighborhood scan, tile-cell writes into next) is in bounds: Evolve returns a
result — the out-of-bounds (none) branch of the embedding is unreachable —
for every visit order of the Border entries. -/
theorem C6_no_failure {mask : BGrid} {rules : List Offset} {p : Pattern}
    {rows cols : Nat} {tile newTile : BGrid} {entries : List (Nat × List Cell)}
    (h : New mask rules = .ok p) (hrect : Rect mask rows cols)
    (htile : Rect tile rows cols) (hnew : Rect newTile rows cols)
    (hperm : entries.Perm p.Border) :
    ∃ res, EvolveOrd p entries tile newTile = some res := by
  obtain ⟨hrows, hcols, hmask, hcells, htess⟩ := New_ok_inv h
  have hinv := New_entry_inv h
  have hfill : ∃ t', fillBorder p.Cells entries tile = some t' := by
    apply fillBorder_isSome_iff.mpr
    intro e he
    have he2 : e ∈ p.Border := hperm.mem_iff.mp he
    obtain ⟨hk, hbc⟩ := hinv e he2
    obtain ⟨tc, htc⟩ : ∃ tc, p.Cells[e.1]? = some tc := by
      cases hc : p.Cells[e.1]? with
      | none =>
        rw [List.getElem?_eq_none_iff] at hc
        omega
      | some tc => exact ⟨tc, rfl⟩
    refine ⟨tc, htc, ?_, ?_⟩
    · intro hne
      obtain ⟨bc0, hbc0⟩ := List.exists_mem_of_ne_nil e.2 hne
      obtain ⟨hin0, hrpos, hcpos⟩ := inRange_convert hrect (hbc bc0 hbc0).1
      by_cases h0 : e.1 = 0
      · rw [h0, hcells] at htc
        rw [List.getElem?_cons_zero] at htc
        injection htc with htc
        subst htc
        refine get2?_isSome_of_inRange htile ?_
        refine ⟨le_refl 0, ?_, le_refl 0, ?_⟩
        · show (0 : Int) < (rows : Int)
          exact_mod_cast hrpos
        · show (0 : Int) < (cols : Int)
          exact_mod_cast hcpos
      · obtain ⟨k, hk1⟩ : ∃ k, e.1 = k + 1 := ⟨e.1 - 1, by omega⟩
        rw [hk1, hcells, List.getElem?_cons_succ] at htc
        have hmem := List.getElem?_mem htc
        obtain ⟨hintc, _⟩ := trueCoords_inRange hrect hmem
        exact get2?_isSome_of_inRange htile (of_decide_eq_true hintc)
    · intro bc hbcm
      obtain ⟨hin0, hrpos, hcpos⟩ := inRange_convert hrect (hbc bc hbcm).1
      exact get2?_isSome_of_inRange htile (of_decide_eq_true hin0)
  obtain ⟨t', hfill'⟩ := hfill
  have hdims := fillBorder_dims hfill'
  have htile' : Rect t' rows cols := rect_congr hdims htile
  have htrans : ∃ nt', evolveCells t' (p.Cells.drop 1) newTile = some nt' := by
    apply evolveCells_isSome_iff.mpr
    intro cc hcc
    have hccm : cc ∈ trueCoords mask := by
      rw [hcells] at hcc
      simpa using hcc
    obtain ⟨hin, _⟩ := trueCoords_inRange hrect hccm
    exact ⟨get2?_isSome_of_inRange htile' (of_decide_eq_true hin),
      get2?_isSome_of_inRange hnew (of_decide_eq_true hin)⟩
  obtain ⟨nt', htrans'⟩ := htrans
  exact ⟨(t', nt'), EvolveOrd_mk hfill' htrans'⟩

/-- Witness for C6 on the 3×3 pattern with one rule, reversed entry order. -/
theorem C6_no_failure_witness :
    ∃ res, EvolveOrd witPat5 witPat5.Border.reverse cexCur5 cexNext5 = some res :=
  @C6_no_failure cexMask5 witRules5 witPat5 3 3 cexCur5 cexNext5
    witPat5.Border.reverse (by rfl) (by decide) (by decide) (by decide)
    (List.reverse_perm witPat5.Border)

/-- C7: Evolve writes into the next grid only at tile-cell coordinates (the
Cell List entries 1..N): every position that is not a tile-cell coordinate
keeps exactly the value it held before the call. -/
theorem C7_next_frame {mask : BGrid} {rules : List Offset} {p : Pattern}
    {tile newTile t' nt' : BGrid}
    (h : New mask rules = .ok p)
    (he : Evolve p tile newTile = some (t', nt')) :
    ∀ r c : Int, (∀ cc ∈ p.Cells.drop 1, ¬(r = cc.row ∧ c = cc.col)) →
      get2? nt' r c = get2? newTile r c := by
  intro r c hq
  obtain ⟨h1, h2⟩ := EvolveOrd_inv he
  exact evolveCells_get_not_mem h2 hq

/-- Witness for C7: the corner (0,0) of the block pattern is not a tile cell
and keeps its value. -/
theorem C7_next_frame_witness :
    get2? (Evolve witPatB witMaskB witNextB).get!.2 0 0 = get2? witNextB 0 0 := by
  have he : Evolve witPatB witMaskB witNextB =
      some ((Evolve witPatB witMaskB witNextB).get!.1,
        (Evolve witPatB witMaskB witNextB).get!.2) := by decide
  exact @C7_next_frame witMaskB [] witPatB witMaskB witNextB
    (Evolve witPatB witMaskB witNextB).get!.1
    (Evolve witPatB witMaskB witNextB).get!.2 (by rfl) he 0 0 (by decide)

/-- C2: for every pattern built by New on a rectangular mask and every tile
cell with identifier 1..N at coordinate tc, Evolve writes into next at tc the
standard Game of Life rule applied to the border-extended current grid: a
live cell survives exactly with 2 or 3 live Moore neighbors (out-of-bounds
counting as dead), a dead cell becomes alive exactly with 3. -/
theorem C2_life_rule {mask : BGrid} {rules : List Offset} {p : Pattern}
    {rows cols : Nat} {tile newTile t' nt' : BGrid}
    (h : New mask rules = .ok p) (hrect : Rect mask rows cols)
    (htile : Rect tile rows cols)
    (he : Evolve p tile newTile = some (t', nt'))
    {id : Nat} (hid : 1 ≤ id) {tc : Cell} (htc : p.Cells[id]? = some tc) :
    ∃ cur, get2? t' tc.row tc.col = some cur ∧
      get2? nt' tc.row tc.col =
        some (specLifeRule cur (specLiveNeighbors t' tc)) := by
  obtain ⟨hrows, hcols, hmask, hcells, htess⟩ := New_ok_inv h
  obtain ⟨hfill, htrans⟩ := EvolveOrd_inv he
  obtain ⟨k, hk1⟩ : ∃ k, id = k + 1 := ⟨id - 1, by omega⟩
  rw [hk1, hcells, List.getElem?_cons_succ] at htc
  have hmem := List.getElem?_mem htc
  obtain ⟨hin, _⟩ := trueCoords_inRange hrect hmem
  have hb := of_decide_eq_true hin
  have htile' : Rect t' rows cols := rect_congr (fillBorder_dims hfill) htile
  have hsome := get2?_isSome_of_inRange htile' hb
  obtain ⟨cur, hcur⟩ := Option.isSome_iff_exists.mp hsome
  refine ⟨cur, hcur, ?_⟩
  have hev := evolveCell_spec hcur
  rw [countNeighbors_eq_spec htile' hb] at hev
  have hcell : Cell.mk tc.row tc.col = tc := rfl
  rw [hcell] at hev
  have hnd : (p.Cells.drop 1).Nodup := by
    rw [hcells]
    simpa using trueCoords_nodup mask
  have hmem2 : tc ∈ p.Cells.drop 1 := by
    rw [hcells]
    simpa using hmem
  exact evolveCells_value htrans hnd hmem2 hev

/-- Witness for C2 on the still-life block: the center cell (1,1) stays
alive. -/
theorem C2_life_rule_witness :
    ∃ cur, get2? (Evolve witPatB witMaskB witNextB).get!.1 1 1 = some cur ∧
      get2? (Evolve witPatB witMaskB witNextB).get!.2 1 1 =
        some (specLifeRule cur
          (specLiveNeighbors (Evolve witPatB witMaskB witNextB).get!.1
            (Cell.mk 1 1))) := by
  have he : Evolve witPatB witMaskB witNextB =
      some ((Evolve witPatB witMaskB witNextB).get!.1,
        (Evolve witPatB witMaskB witNextB).get!.2) := by decide
  exact @C2_life_rule witMaskB [] witPatB 4 4 witMaskB witNextB
    (Evolve witPatB witMaskB witNextB).get!.1
    (Evolve witPatB witMaskB witNextB).get!.2 (by rfl) (by decide) (by decide)
    he 1 (by decide) (Cell.mk 1 1) (by decide)

/-- C8 (counterexample): on the 3×3 center pattern with rules (-1,-1) and
(0,1), the coordinate (0,1) is recorded under identifier 0 (tile coordinate
(0,0)), the initial current value at (0,0) is false, yet after Evolve the
current grid holds true at (0,1): an earlier entry overwrote (0,0) before the
sentinel's entry was read, so border coordinates do not always receive the
value current held at the identifier's tile coordinate before the call. -/
theorem C8_counterexample :
    New cexMask5 cexRules5 = .ok cexPat5 ∧
    Cell.mk 0 1 ∈ borderGet cexPat5.Border 0 ∧
    cexPat5.Cells[0]? = some (Cell.mk 0 0) ∧
    get2? cexCur5 0 0 = some false ∧
    (Evolve cexPat5 cexCur5 cexNext5).map (fun res => get2? res.1 0 1) =
      some (some true) := by
  refine ⟨rfl, by decide, by decide, by decide, by decide⟩

/-- C8 (amended): Evolve mutates current only at Border Map coordinates, and
every mask-true position of current keeps its value; each border coordinate
receives the value read at its identifier's tile coordinate when its entry is
processed, which equals the value current held there before the call whenever
no entry's tile coordinate is itself a recorded border coordinate and no
border coordinate is shared between entries of different identifiers (always
the case for identifiers 1..N alone, whose tile coordinates are mask-true;
the sentinel's (0,0) can itself be a border coordinate, as the counterexample
shows). -/
theorem C8_current_mutation {mask : BGrid} {rules : List Offset} {p : Pattern}
    {rows cols : Nat} {tile newTile t' nt' : BGrid}
    (h : New mask rules = .ok p) (hrect : Rect mask rows cols)
    (he : Evolve p tile newTile = some (t', nt')) :
    (∀ r c : Int, (∀ e ∈ p.Border, ∀ bc ∈ e.2, ¬(r = bc.row ∧ c = bc.col)) →
      get2? t' r c = get2? tile r c) ∧
    (∀ r c : Int, get2? mask r c = some true → get2? t' r c = get2? tile r c) ∧
    ((∀ e ∈ p.Border, ∀ e2 ∈ p.Border, ∀ bc ∈ e2.2, p.Cells[e.1]? ≠ some bc) →
     (∀ e1 ∈ p.Border, ∀ e2 ∈ p.Border, ∀ q ∈ e1.2, q ∈ e2.2 → e1.1 = e2.1) →
      ∀ id v bc, (id, v) ∈ p.Border → bc ∈ v →
        ∃ tc, p.Cells[id]? = some tc ∧
          get2? t' bc.row bc.col = get2? tile tc.row tc.col) := by
  obtain ⟨hfill, htrans⟩ := EvolveOrd_inv he
  have hinv := New_entry_inv h
  refine ⟨?_, ?_, ?_⟩
  · intro r c hq
    exact fillBorder_get_not_mem hfill hq
  · intro r c htrue
    refine fillBorder_get_not_mem hfill ?_
    intro e hePB bc hbc hco
    obtain ⟨hk, hprops⟩ := hinv e hePB
    obtain ⟨hin0, hdead, hcnt0⟩ := hprops bc hbc
    have hfalse := border_coord_mask_false hrect hin0 hdead
    rw [hco.1, hco.2] at htrue
    rw [htrue] at hfalse
    simp at hfalse
  · intro hdisj huw id v bc hmem hbc
    refine fillBorder_values hfill ?_ ?_ id v bc hmem hbc
    · intro e hePB tc htc e2 he2 htcmem
      exact hdisj e hePB e2 he2 tc htcmem htc
    · intro e1 he1 e2 he2 q hq1 hq2
      exact huw e1 he1 e2 he2 q hq1 hq2

/-- Witness for the amended C8: on the one-rule 3×3 pattern the border
coordinate (1,0) of identifier 0 receives the prior value of (0,0). -/
theorem C8_current_mutation_witness :
    ∃ tc, witPat5.Cells[0]? = some tc ∧
      get2? (Evolve witPat5 cexCur5 cexNext5).get!.1 1 0 =
        get2? cexCur5 tc.row tc.col := by
  have he : Evolve witPat5 cexCur5 cexNext5 =
      some ((Evolve witPat5 cexCur5 cexNext5).get!.1,
        (Evolve witPat5 cexCur5 cexNext5).get!.2) := by decide
  exact (@C8_current_mutation cexMask5 witRules5 witPat5 3 3 cexCur5 cexNext5
    (Evolve witPat5 cexCur5 cexNext5).get!.1
    (Evolve witPat5 cexCur5 cexNext5).get!.2 (by rfl) (by decide) he).2.2
    (by decide) (by decide) 0 [⟨1, 0⟩] ⟨1, 0⟩ (by decide) (by decide)

/-- C5 (counterexample): on the 3×3 center pattern with rules (-1,-1) and
(0,1), visiting the two Border entries in the two possible orders leaves the
current grid in different final states (they differ at (0,1)), so the result
of Evolve is not independent of the unspecified map iteration order. -/
theorem C5_counterexample :
    New cexMask5 cexRules5 = .ok cexPat5 ∧
    cexPat5.Border.reverse.Perm cexPat5.Border ∧
    EvolveOrd cexPat5 cexPat5.Border cexCur5 cexNext5 ≠
      EvolveOrd cexPat5 cexPat5.Border.reverse cexCur5 cexNext5 := by
  refine ⟨rfl, List.reverse_perm _, by decide⟩

/-- C5 (amended): Evolve is a deterministic function of the pattern, the
current grid and the Border entry visit order; moreover the result is
independent of the visit order whenever no entry's tile coordinate is itself
a recorded border coordinate and no border coordinate is shared between
entries of different identifiers: then any two permutations of the Border
entries produce identical next grids and identical final current grids. The
counterexample shows the restriction is necessary: the sentinel entry's read
coordinate (0,0) can be another entry's write target, making the final
current grid depend on the visit order. -/
theorem C5_order_independence {t : Pattern}
    {entries1 entries2 : List (Nat × List Cell)} {tile newTile : BGrid}
    (hperm : entries1.Perm entries2)
    (hdisj : ∀ e ∈ entries1, ∀ e2 ∈ entries1, ∀ bc ∈ e2.2,
      t.Cells[e.1]? ≠ some bc)
    (huw : ∀ e1 ∈ entries1, ∀ e2 ∈ entries1, ∀ q ∈ e1.2, q ∈ e2.2 →
      e1.1 = e2.1) :
    EvolveOrd t entries1 tile newTile = EvolveOrd t entries2 tile newTile := by
  have hmem12 : ∀ x : Nat × List Cell, x ∈ entries1 ↔ x ∈ entries2 :=
    fun x => hperm.mem_iff
  have hdisjF1 : ∀ e ∈ entries1, ∀ tc, t.Cells[e.1]? = some tc →
      ∀ e2 ∈ entries1, tc ∉ e2.2 := by
    intro e he tc htc e2 he2 hmem
    exact hdisj e he e2 he2 tc hmem htc
  have hdisjF2 : ∀ e ∈ entries2, ∀ tc, t.Cells[e.1]? = some tc →
      ∀ e2 ∈ entries2, tc ∉ e2.2 := by
    intro e he tc htc e2 he2 hmem
    exact hdisj e ((hmem12 e).mpr he) e2 ((hmem12 e2).mpr he2) tc hmem htc
  have huwF1 : ∀ e1 ∈ entries1, ∀ e2 ∈ entries1, ∀ q, q ∈ e1.2 → q ∈ e2.2 →
      e1.1 = e2.1 := fun e1 he1 e2 he2 q hq1 hq2 => huw e1 he1 e2 he2 q hq1 hq2
  have huwF2 : ∀ e1 ∈ entries2, ∀ e2 ∈ entries2, ∀ q, q ∈ e1.2 → q ∈ e2.2 →
      e1.1 = e2.1 := fun e1 he1 e2 he2 q hq1 hq2 =>
    huw e1 ((hmem12 e1).mpr he1) e2 ((hmem12 e2).mpr he2) q hq1 hq2
  rw [EvolveOrd, EvolveOrd]
  cases h1 : fillBorder t.Cells entries1 tile with
  | none =>
    cases h2 : fillBorder t.Cells entries2 tile with
    | none => rfl
    | some t2 =>
      exfalso
      have hcond := fillBorder_isSome_iff.mp ⟨t2, h2⟩
      obtain ⟨t1, ht1⟩ :=
        fillBorder_isSome_iff.mpr (fun e he => hcond e ((hmem12 e).mp he))
      rw [h1] at ht1
      cases ht1
  | some t1 =>
    cases h2 : fillBorder t.Cells entries2 tile with
    | none =>
      exfalso
      have hcond := fillBorder_isSome_iff.mp ⟨t1, h1⟩
      obtain ⟨t2, ht2⟩ :=
        fillBorder_isSome_iff.mpr (fun e he => hcond e ((hmem12 e).mpr he))
      rw [h2] at ht2
      cases ht2
    | some t2 =>
      have heq : t1 = t2 := by
        apply grid_ext ((fillBorder_dims h1).trans (fillBorder_dims h2).symm)
        intro r c
        by_cases hw : ∃ e, e ∈ entries1 ∧ ∃ bc, bc ∈ e.2 ∧ bc.row = r ∧ bc.col = c
        · obtain ⟨e, he, bc, hbc, hbr, hbcc⟩ := hw
          obtain ⟨tc, htc, hv1⟩ := fillBorder_values h1 hdisjF1 huwF1 e.1 e.2 bc
            (by rw [Prod.mk.eta]; exact he) hbc
          obtain ⟨tc2, htc2, hv2⟩ := fillBorder_values h2 hdisjF2 huwF2 e.1 e.2 bc
            (by rw [Prod.mk.eta]; exact (hmem12 e).mp he) hbc
          rw [htc] at htc2
          injection htc2 with htceq
          subst hbr
          subst hbcc
          rw [hv1, hv2, htceq]
        · have hq1 : ∀ e ∈ entries1, ∀ bc ∈ e.2, ¬(r = bc.row ∧ c = bc.col) := by
            intro e he bc hbc hco
            exact hw ⟨e, he, bc, hbc, hco.1.symm, hco.2.symm⟩
          have hq2 : ∀ e ∈ entries2, ∀ bc ∈ e.2, ¬(r = bc.row ∧ c = bc.col) :=
            fun e he bc hbc hco => hq1 e ((hmem12 e).mpr he) bc hbc hco
          rw [fillBorder_get_not_mem h1 hq1, fillBorder_get_not_mem h2 hq2]
      subst heq
      rfl

/-- Witness for the amended C5: on the one-rule 3×3 pattern the two entry
orders give identical results. -/
theorem C5_order_independence_witness :
    EvolveOrd witPat5 witPat5.Border cexCur5 cexNext5 =
      EvolveOrd witPat5 witPat5.Border.reverse cexCur5 cexNext5 :=
  @C5_order_independence witPat5 witPat5.Border witPat5.Border.reverse
    cexCur5 cexNext5 (List.reverse_perm witPat5.Border).symm
    (by decide) (by decide)

end Tessellation